import Mathlib

/-!
Shallow embedding of the Rust_Blockchain_1 repository (src/src/*.rs) and
verification of its natural-language specification.

Modelling conventions:
* Rust `Result`/`?` propagation is `Except RErr`; a Rust panic (slice out of
  bounds, `.unwrap()` on `None`) is the distinguished error `RErr.panicked`.
* Byte vectors (`Vec<u8>`) are `List Nat`; `i32` values (amounts, heights,
  output indices) are `Int` — no arithmetic in the verified claims comes
  near the `i32` range, so wrap-around is immaterial and not modelled.
* The cryptographic primitives (ed25519 sign/verify, SHA-256 hashing,
  base58 address codecs) and `bincode` serialization are opaque external
  libraries; they are passed in as function parameters, and theorems that
  need properties of them (e.g. that a signature verifies against the key
  that produced it) state those properties as explicit hypotheses.
* `sled::Db` stores are association lists searched front-to-back; an insert
  conses at the front, so it shadows (overwrites) an existing key.
-/

/-- An error result: `rerr s` models `Err(format_err!(s...))` (the dynamic
part of a formatted message is not always reproduced); `panicked` models a
Rust panic (indexing out of bounds, `unwrap` on `None`). -/
inductive RErr where
  | rerr : String → RErr
  | panicked : RErr
  deriving DecidableEq, Repr

/-- The `Result<T>` type of `errors.rs` (not under src/): a
`failure`-style result, modelled as `Except`. -/
abbrev Res (α : Type) := Except RErr α

/-- `TXInput` from src/src/tx.rs. -/
structure TXInput where
  txid : String
  vout : Int
  signature : List Nat
  pub_key : List Nat
  deriving DecidableEq, Repr

/-- `TXOutput` from src/src/tx.rs. -/
structure TXOutput where
  value : Int
  pub_key_hash : List Nat
  deriving DecidableEq, Repr

/-- `Transaction` from src/src/transaction.rs. -/
structure Transaction where
  id : String
  vin : List TXInput
  vout : List TXOutput
  deriving DecidableEq, Repr

/-- `SUBSIDY` from src/src/transaction.rs line 14. -/
def SUBSIDY : Int := 10

/-- `Transaction::is_coinbase` (transaction.rs lines 117-119):
`vin.len() == 1 && vin[0].txid.is_empty() && vin[0].vout == -1`. -/
def Transaction.is_coinbase (t : Transaction) : Bool :=
  match t.vin with
  | [v] => v.txid == "" && v.vout == -1
  | _ => false

/-- The per-input blanking of `Transaction::trim_copy` (transaction.rs
lines 242-249): keep txid and vout, blank signature and public key. -/
def trimIn (v : TXInput) : TXInput :=
  { txid := v.txid, vout := v.vout, signature := [], pub_key := [] }

/-- `Transaction::trim_copy` (transaction.rs lines 238-263): copies the
transaction with every input signature and public key blanked. -/
def Transaction.trim_copy (t : Transaction) : Transaction :=
  { id := t.id,
    vin := t.vin.map trimIn,
    vout := t.vout.map fun o =>
      { value := o.value, pub_key_hash := o.pub_key_hash } }

/-- `Transaction::hash` (transaction.rs lines 229-236): blanks the id and
hashes the bincode serialization with SHA-256.  The serialize-and-digest
composite is the opaque parameter `H`. -/
def Transaction.hashWith (H : Transaction → String) (t : Transaction) : String :=
  H { t with id := "" }

/-- `prev_tx.vout[vin.vout as usize]` (transaction.rs lines 139, 210): a
negative `i32` cast `as usize` produces an astronomically large index, so a
negative `vout` is out of bounds just like `vout ≥ len`; out of bounds is a
panic, modelled as `none`. -/
def outAt (p : Transaction) (v : Int) : Option TXOutput :=
  if v < 0 then none else p.vout.get? v.toNat

/-- `tx_copy.vin[in_id]` update in sign/verify (transaction.rs lines
138-143, 209-216): clear the signature and set the public key at index `i`. -/
def substPk : List TXInput → Nat → List Nat → List TXInput
  | [], _, _ => []
  | v :: vs, 0, pkh => { txid := v.txid, vout := v.vout, signature := [], pub_key := pkh } :: vs
  | v :: vs, Nat.succ i, pkh => v :: substPk vs i pkh

/-- The hash string that `sign`/`verify` compute for input `i`: the trimmed
copy with the referenced output's `pub_key_hash` substituted at input `i`,
id blanked by `Transaction::hash`. -/
def trimmedMsg (H : Transaction → String) (base : Transaction) (i : Nat) (pkh : List Nat) : String :=
  Transaction.hashWith H { id := base.id, vin := substPk base.vin i pkh, vout := base.vout }

/-- The per-input message computation shared by sign and verify
(transaction.rs lines 136-143 and 206-216): look up the previous
transaction, index its `vout`, and hash the substituted trimmed copy.
`none` is a panic (missing map key / out-of-range index). -/
def mkMsg (H : Transaction → String) (prevTxs : String → Option Transaction)
    (base : Transaction) (i : Nat) (v : TXInput) : Option String :=
  match prevTxs v.txid with
  | none => none
  | some p =>
    match outAt p v.vout with
    | none => none
    | some o => some (trimmedMsg H base i o.pub_key_hash)

/-- The guard loop at transaction.rs lines 127-131 / 198-202:
`prev_txs.get(&vin.txid).unwrap()` (panic when absent), error when the
found transaction has an empty id. -/
def checkPrevLoop (errMsg : String) (prevTxs : String → Option Transaction) :
    List TXInput → Res Unit
  | [] => .ok ()
  | v :: vs =>
    match prevTxs v.txid with
    | none => .error .panicked
    | some p =>
      if p.id = "" then .error (.rerr errMsg) else checkPrevLoop errMsg prevTxs vs

/-- The sequence of per-input messages hashed by `Transaction::sign`
(transaction.rs lines 205-219), walking the inputs with their index. -/
def signMsgs (H : Transaction → String) (prevTxs : String → Option Transaction)
    (base : Transaction) : List TXInput → Nat → Option (List String)
  | [], _ => some []
  | v :: vs, i =>
    match mkMsg H prevTxs base i v with
    | none => none
    | some m =>
      match signMsgs H prevTxs base vs (i + 1) with
      | none => none
      | some ms => some (m :: ms)

/-- Store, input by input, the signature of the corresponding message
(transaction.rs line 222: `self.vin[in_id].signature = signature...`). -/
def setSigs (edSign : List Nat → String → List Nat) (privKey : List Nat) :
    List TXInput → List String → List TXInput
  | [], _ => []
  | _ :: _, [] => []
  | v :: vs, m :: ms => { v with signature := edSign privKey m } :: setSigs edSign privKey vs ms

/-- `Transaction::sign` (transaction.rs lines 180-227).  `edSign sk msg`
is `SigningKey::from_bytes(sk).sign(msg.as_bytes())`. -/
def Transaction.sign (edSign : List Nat → String → List Nat) (H : Transaction → String)
    (privKey : List Nat) (prevTxs : String → Option Transaction) (t : Transaction) :
    Res Transaction :=
  if t.is_coinbase then .ok t
  else if privKey.length ≠ 32 then .error (.rerr "Invalid private key length")
  else
    match checkPrevLoop "Error: Previous transaction is not corrent" prevTxs t.vin with
    | .error e => .error e
    | .ok _ =>
      match signMsgs H prevTxs t.trim_copy t.vin 0 with
      | none => .error .panicked
      | some ms => .ok { t with vin := setSigs edSign privKey t.vin ms }

/-- The verification loop of `Transaction::verify` (transaction.rs lines
135-175): per input, recompute the trimmed message, check key/signature
lengths (error), parse the verifying key (error when malformed), then check
the signature — a failed check returns `Ok(false)` at once. -/
def verifyLoop (edVerify : List Nat → String → List Nat → Bool)
    (pkParses : List Nat → Bool) (H : Transaction → String)
    (prevTxs : String → Option Transaction) (base : Transaction) :
    List TXInput → Nat → Res Bool
  | [], _ => .ok true
  | v :: vs, i =>
    match mkMsg H prevTxs base i v with
    | none => .error .panicked
    | some m =>
      if v.pub_key.length ≠ 32 ∨ v.signature.length ≠ 64 then
        .error (.rerr "Invalid public key or signature length")
      else if pkParses v.pub_key = false then
        .error (.rerr "Failed to parse public key")
      else if edVerify v.pub_key m v.signature then
        verifyLoop edVerify pkParses H prevTxs base vs (i + 1)
      else .ok false

/-- `Transaction::verify` (transaction.rs lines 122-178).  `edVerify pk msg
sig` is `VerifyingKey::from_bytes(pk).verify(msg.as_bytes(), sig).is_ok()`;
`pkParses pk` is whether `VerifyingKey::from_bytes(pk)` succeeds. -/
def Transaction.verify (edVerify : List Nat → String → List Nat → Bool)
    (pkParses : List Nat → Bool) (H : Transaction → String)
    (prevTxs : String → Option Transaction) (t : Transaction) : Res Bool :=
  if t.is_coinbase then .ok true
  else
    match checkPrevLoop "ERROR: Previous transaction is not correct" prevTxs t.vin with
    | .error e => .error e
    | .ok _ => verifyLoop edVerify pkParses H prevTxs t.trim_copy t.vin 0

/-- UTF-8 bytes of a string (`str::as_bytes`), adequate for the ASCII
strings used by the code. -/
def strBytes (s : String) : List Nat := s.toList.map Char.toNat

/-- `TXOutput::new` (tx.rs lines 69-76) with `lock` (lines 89-99):
`pub_key_hash` is the body of the base58-decoded address; the decoder is
the opaque parameter `decodeAddr`. -/
def TXOutput.new (decodeAddr : String → List Nat) (value : Int) (address : String) :
    TXOutput :=
  { value := value, pub_key_hash := decodeAddr address }

/-- `Transaction::new_coinbase` (transaction.rs lines 85-115): a single
sentinel input (empty txid, vout −1) whose `pub_key` is the memo bytes
followed by a 32-byte key (random only when the memo was empty), and a
single output of `SUBSIDY` to the recipient.  `randKey` stands for the
`OsRng` bytes drawn when `data` is empty. -/
def Transaction.new_coinbase (decodeAddr : String → List Nat) (H : Transaction → String)
    (randKey : List Nat) (toA data : String) : Transaction :=
  let key : List Nat := if data = "" then randKey else List.replicate 32 0
  let data2 : String := if data = "" then "Reward to " ++ toA else data
  let pk : List Nat := strBytes data2 ++ key
  let t : Transaction :=
    { id := "",
      vin := [{ txid := "", vout := -1, signature := [], pub_key := pk }],
      vout := [TXOutput.new decodeAddr SUBSIDY toA] }
  { t with id := t.hashWith H }

/-- `Wallet` from src/src/wallet.rs. -/
structure Wallet where
  secret_key : List Nat
  public_key : List Nat
  deriving DecidableEq, Repr

/-! ## Block and Blockchain (src/src/blockchain.rs; Block modelled from the spec) -/

/-- Modelled from the spec: `block.rs` is referenced by `main.rs` but is not
under src/.  Per spec section 3, a Block carries a height, a hash, the
previous block's hash (empty only for genesis), an ordered list of
transactions, a nonce and a millisecond timestamp. -/
structure Block where
  timestamp : Nat
  transactions : List Transaction
  prev_block_hash : String
  hash : String
  height : Int
  nonce : Nat
  deriving DecidableEq, Repr

/-- Modelled from the spec: `Block::new_block(transactions, prev_hash,
height)` stores the given transactions, previous hash and height, and sets
hash and nonce by the proof-of-work search; the hash is a pure function of
prev-hash, transactions and nonce (spec section 3), taken here as the
opaque parameters `hashB`/`nonceB`, with `timeB` the creation timestamp. -/
def Block.new_block (hashB : String → List Transaction → Nat → String)
    (nonceB : String → List Transaction → Nat) (timeB : Nat)
    (transactions : List Transaction) (prev : String) (height : Int) : Block :=
  let n := nonceB prev transactions
  { timestamp := timeB, transactions := transactions, prev_block_hash := prev,
    hash := hashB prev transactions n, height := height, nonce := n }

/-- The sled store of blockchain.rs: block hash → Block.  The reserved key
"LAST" of the same sled tree is kept apart in `Blockchain.last` (block keys
are hex digests, never the literal "LAST"). -/
abbrev BlockStore := List (String × Block)

/-- `db.insert(k, v)`: overwrite by shadowing (lookup returns the first
match). -/
def storeInsert (s : BlockStore) (k : String) (b : Block) : BlockStore :=
  (k, b) :: s

/-- `Blockchain` from blockchain.rs lines 20-25: the tip hash and the sled
db (block map plus the "LAST" pointer). -/
structure Blockchain where
  tip : String
  store : BlockStore
  last : Option String
  deriving Repr

/-- `BlockchainIter` (blockchain.rs lines 325-344): follow `prev_block_hash`
links from a starting hash, stopping at a missing key.  The Rust iterator
has no fuel; on a hash-linked (acyclic) store, fuel `store.length` never
truncates, which is the only situation the claims use. -/
def chainIter (s : BlockStore) : String → Nat → List Block
  | _, 0 => []
  | h, Nat.succ f =>
    match List.lookup h s with
    | none => []
    | some b => b :: chainIter s b.prev_block_hash f

/-- `Blockchain::iter` consumed to a list: blocks from tip to genesis. -/
def Blockchain.iterBlocks (bc : Blockchain) : List Block :=
  chainIter bc.store bc.tip bc.store.length

/-- The nested search loop of `find_transaction` (blockchain.rs lines
204-213). -/
def findTxInBlocks (id : String) : List Block → Option Transaction
  | [] => none
  | b :: bs =>
    match b.transactions.find? (fun tx => tx.id == id) with
    | some tx => some tx
    | none => findTxInBlocks id bs

/-- `Blockchain::find_transaction` (blockchain.rs lines 204-213). -/
def Blockchain.find_transaction (bc : Blockchain) (id : String) : Res Transaction :=
  match findTxInBlocks id bc.iterBlocks with
  | some tx => .ok tx
  | none => .error (.rerr "Transaction is not found")

/-- The loop of `get_prev_txs` (blockchain.rs lines 215-222): resolve every
input's previous transaction, keyed by the found transaction's id. -/
def prevTxsLoop (bc : Blockchain) : List TXInput → Res (List (String × Transaction))
  | [] => .ok []
  | v :: vs =>
    match bc.find_transaction v.txid with
    | .error e => .error e
    | .ok p =>
      match prevTxsLoop bc vs with
      | .error e => .error e
      | .ok rest => .ok ((p.id, p) :: rest)

/-- `Blockchain::get_prev_txs` (blockchain.rs lines 215-222). -/
def Blockchain.get_prev_txs (bc : Blockchain) (t : Transaction) :
    Res (List (String × Transaction)) :=
  prevTxsLoop bc t.vin

/-- `Blockchain::verify_transacton` (blockchain.rs lines 232-238). -/
def Blockchain.verify_transacton (edVerify : List Nat → String → List Nat → Bool)
    (pkParses : List Nat → Bool) (H : Transaction → String)
    (bc : Blockchain) (t : Transaction) : Res Bool :=
  if t.is_coinbase then .ok true
  else
    match bc.get_prev_txs t with
    | .error e => .error e
    | .ok pairs => Transaction.verify edVerify pkParses H (fun s => List.lookup s pairs) t

/-- `Blockchain::sign_transacton` (blockchain.rs lines 225-229); returns
the signed transaction instead of mutating it in place. -/
def Blockchain.sign_transacton (edSign : List Nat → String → List Nat)
    (H : Transaction → String) (bc : Blockchain) (privKey : List Nat)
    (t : Transaction) : Res Transaction :=
  match bc.get_prev_txs t with
  | .error e => .error e
  | .ok pairs => Transaction.sign edSign H privKey (fun s => List.lookup s pairs) t

/-- `Blockchain::get_best_height` (blockchain.rs lines 303-312): −1 when
"LAST" is absent; otherwise the height of the block "LAST" points at
(`unwrap` panic when that block is missing). -/
def Blockchain.get_best_height (bc : Blockchain) : Res Int :=
  match bc.last with
  | none => .ok (-1)
  | some h =>
    match List.lookup h bc.store with
    | none => .error .panicked
    | some b => .ok b.height

/-- The verification loop of `mine_block` (blockchain.rs lines 253-257):
any error propagates, any `Ok(false)` aborts with "ERROR: Invalid
transaction". -/
def verifyBatch (edVerify : List Nat → String → List Nat → Bool)
    (pkParses : List Nat → Bool) (H : Transaction → String)
    (bc : Blockchain) : List Transaction → Res Unit
  | [] => .ok ()
  | tx :: rest =>
    match Blockchain.verify_transacton edVerify pkParses H bc tx with
    | .error e => .error e
    | .ok true => verifyBatch edVerify pkParses H bc rest
    | .ok false => .error (.rerr "ERROR: Invalid transaction")

/-- `Blockchain::mine_block` (blockchain.rs lines 243-276), as a state
transformer: on any verification failure the store, "LAST" pointer and tip
are returned untouched; otherwise the new block (previous hash = "LAST",
height = best height + 1) is inserted, "LAST" and the tip advance to it.
`db.get("LAST")?.unwrap()` panics when "LAST" is absent. -/
def Blockchain.mine_block (edVerify : List Nat → String → List Nat → Bool)
    (pkParses : List Nat → Bool) (H : Transaction → String)
    (hashB : String → List Transaction → Nat → String)
    (nonceB : String → List Transaction → Nat) (timeB : Nat)
    (bc : Blockchain) (txs : List Transaction) : Blockchain × Res Block :=
  match verifyBatch edVerify pkParses H bc txs with
  | .error e => (bc, .error e)
  | .ok _ =>
    match bc.last with
    | none => (bc, .error .panicked)
    | some lasthash =>
      match bc.get_best_height with
      | .error e => (bc, .error e)
      | .ok h =>
        let nb := Block.new_block hashB nonceB timeB txs lasthash (h + 1)
        ({ tip := nb.hash, store := storeInsert bc.store nb.hash nb,
           last := some nb.hash }, .ok nb)

/-- `Blockchain::add_block` (blockchain.rs lines 279-293): return at once
when the block's hash is already stored; otherwise insert it, and advance
"LAST" and the tip exactly when its height exceeds the best height (read
after the insert, from the unchanged "LAST" pointer). -/
def Blockchain.add_block (bc : Blockchain) (b : Block) : Blockchain × Res Unit :=
  match List.lookup b.hash bc.store with
  | some _ => (bc, .ok ())
  | none =>
    let bc1 : Blockchain := { bc with store := storeInsert bc.store b.hash b }
    match bc1.get_best_height with
    | .error e => (bc1, .error e)
    | .ok lastheight =>
      if b.height > lastheight then
        ({ tip := b.hash, store := bc1.store, last := some b.hash }, .ok ())
      else (bc1, .ok ())

/-! ## UTXO set (src/src/utxoset.rs and Blockchain::find_utxo) -/

/-- The sled utxo store / the `HashMap<String, TXOutputs>` of `find_utxo`:
transaction id → remaining outputs (the `TXOutputs` wrapper is inlined as
the list). -/
abbrev UtxoMap := List (String × List TXOutput)

/-- `spent_txos : HashMap<String, Vec<i32>>` of `find_utxo`. -/
abbrev SpentMap := List (String × List Int)

/-- `spent_txos.get(&tx.id).map_or(false, |ids| ids.contains(index))`
(blockchain.rs lines 154-158). -/
def spentHas (sp : SpentMap) (id : String) (i : Int) : Bool :=
  match List.lookup id sp with
  | some l => l.contains i
  | none => false

/-- The `match map.get_mut(k) { Some(v) => v.push(x), None => insert [x] }`
idiom used on both maps of `find_utxo` (blockchain.rs lines 160-172,
177-185).  A fresh key is appended at the end; the HashMap itself is
unordered, and no claim depends on entry order. -/
def mapPush {β : Type} (m : List (String × List β)) (k : String) (x : β) :
    List (String × List β) :=
  match List.lookup k m with
  | some _ => m.map fun p => if p.1 = k then (p.1, p.2 ++ [x]) else p
  | none => m ++ [(k, [x])]

/-- The output loop of `find_utxo` (blockchain.rs lines 153-173): record
output `idx` of the transaction as unspent unless `spent_txos` already
marks it spent. -/
def scanOuts (sp : SpentMap) (txid : String) : List TXOutput → Nat → UtxoMap → UtxoMap
  | [], _, u => u
  | o :: rest, idx, u =>
    let u2 := if spentHas sp txid (idx : Int) then u else mapPush u txid o
    scanOuts sp txid rest (idx + 1) u2

/-- The input loop of `find_utxo` (blockchain.rs lines 175-186): mark every
input's referenced (txid, vout) as spent. -/
def scanVins (sp : SpentMap) : List TXInput → SpentMap
  | [] => sp
  | v :: vs => scanVins (mapPush sp v.txid v.vout) vs

/-- One transaction of the `find_utxo` scan: outputs first, then (for
non-coinbase) inputs. -/
def scanTx (u : UtxoMap) (sp : SpentMap) (tx : Transaction) : UtxoMap × SpentMap :=
  let u2 := scanOuts sp tx.id tx.vout 0 u
  let sp2 := if tx.is_coinbase then sp else scanVins sp tx.vin
  (u2, sp2)

/-- The transactions of one block, in order. -/
def scanTxs : List Transaction → UtxoMap × SpentMap → UtxoMap × SpentMap
  | [], acc => acc
  | tx :: rest, acc => scanTxs rest (scanTx acc.1 acc.2 tx)

/-- The block loop of `find_utxo`: blocks in iterator order (tip to
genesis). -/
def scanBlocks : List Block → UtxoMap × SpentMap → UtxoMap × SpentMap
  | [], acc => acc
  | b :: bs, acc => scanBlocks bs (scanTxs b.transactions acc)

/-- `Blockchain::find_utxo` (blockchain.rs lines 146-191). -/
def Blockchain.find_utxo (bc : Blockchain) : UtxoMap :=
  (scanBlocks bc.iterBlocks ([], [])).1

/-- `UTXOSet::reindex` (utxoset.rs lines 32-46): discard the utxo store and
repopulate it from `Blockchain::find_utxo` (whose keys are distinct, so the
rebuilt store holds exactly that map). -/
def UTXOSet.reindex (bc : Blockchain) : UtxoMap :=
  bc.find_utxo

/-- The filtered-copy loop of `UTXOSet::update` (utxoset.rs lines 56-64):
keep every stored output whose position differs from `vin.vout as usize`
(a negative `vout` cast to usize matches no position). -/
def removeIdxGo (v : Int) : List TXOutput → Nat → List TXOutput
  | [], _ => []
  | o :: rest, j =>
    (if (j : Int) = v then [] else [o]) ++ removeIdxGo v rest (j + 1)

/-- `db.insert(k, outs)`: replace the entry when present, append otherwise. -/
def mapSet (m : UtxoMap) (k : String) (outs : List TXOutput) : UtxoMap :=
  match List.lookup k m with
  | some _ => m.map fun p => if p.1 = k then (k, outs) else p
  | none => m ++ [(k, outs)]

/-- `db.remove(k)`. -/
def mapErase (m : UtxoMap) (k : String) : UtxoMap :=
  m.filter fun p => !(p.1 == k)

/-- The input loop of `UTXOSet::update` (utxoset.rs lines 55-71):
`db.get(&vin.txid)?.unwrap()` panics when the referenced entry is absent;
the surviving outputs replace the entry, or the entry is removed when none
survive. -/
def updateVins (db : UtxoMap) : List TXInput → Res UtxoMap
  | [] => .ok db
  | v :: vs =>
    match List.lookup v.txid db with
    | none => .error .panicked
    | some outs =>
      let u := removeIdxGo v.vout outs 0
      let db2 := if u = [] then mapErase db v.txid else mapSet db v.txid u
      updateVins db2 vs

/-- The transaction loop of `UTXOSet::update` (utxoset.rs lines 53-83):
spend the inputs (unless coinbase), then insert the transaction's own
outputs as newly unspent. -/
def updateTxs (db : UtxoMap) : List Transaction → Res UtxoMap
  | [] => .ok db
  | tx :: rest =>
    match (if tx.is_coinbase then .ok db else updateVins db tx.vin : Res UtxoMap) with
    | .error e => .error e
    | .ok db2 => updateTxs (mapSet db2 tx.id tx.vout) rest

/-- `UTXOSet::update` (utxoset.rs lines 50-85). -/
def UTXOSet.update (db : UtxoMap) (b : Block) : Res UtxoMap :=
  updateTxs db b.transactions

/-- Apply `UTXOSet::update` for each block of a sequence in order. -/
def applyUpdates (db : UtxoMap) : List Block → Res UtxoMap
  | [] => .ok db
  | b :: bs =>
    match UTXOSet.update db b with
    | .error e => .error e
    | .ok db2 => applyUpdates db2 bs

/-- The output loop of `find_spendable_outputs` (utxoset.rs lines 125-136):
an output is taken when its `pub_key_hash` matches and the running total is
still below `amount`; taking it adds its value and records its position. -/
def fsoOuts (pkh : List Nat) (amount : Int) (txid : String) :
    List TXOutput → Nat → Int → List (String × List Int) → Int × List (String × List Int)
  | [], _, acc, m => (acc, m)
  | o :: rest, idx, acc, m =>
    if o.pub_key_hash = pkh ∧ acc < amount then
      fsoOuts pkh amount txid rest (idx + 1) (acc + o.value) (mapPush m txid (idx : Int))
    else fsoOuts pkh amount txid rest (idx + 1) acc m

/-- The store loop of `find_spendable_outputs` (utxoset.rs lines 119-137). -/
def fsoDb (pkh : List Nat) (amount : Int) :
    UtxoMap → Int → List (String × List Int) → Int × List (String × List Int)
  | [], acc, m => (acc, m)
  | (txid, outs) :: rest, acc, m =>
    let r := fsoOuts pkh amount txid outs 0 acc m
    fsoDb pkh amount rest r.1 r.2

/-- `UTXOSet::find_spendable_outputs` (utxoset.rs lines 113-140). -/
def UTXOSet.find_spendable_outputs (db : UtxoMap) (pkh : List Nat) (amount : Int) :
    Int × List (String × List Int) :=
  fsoDb pkh amount db 0 []

/-- The vin-construction loop of `Transaction::new_utxo` (transaction.rs
lines 49-59): one input per accumulated (txid, output index) pair, carrying
the sender's public key and an empty signature. -/
def buildVin (pub_key : List Nat) : List (String × List Int) → List TXInput
  | [] => []
  | (txid, idxs) :: rest =>
    idxs.map (fun i => { txid := txid, vout := i, signature := [], pub_key := pub_key })
      ++ buildVin pub_key rest

/-- `Transaction::new_utxo` (transaction.rs lines 26-83).  `walletAddr`
models `Wallet::get_address` (wallet.rs lines 46-69) and `decodeAddr` the
`Address::decode(..).body` of tx.rs/transaction.rs; the sender's
`pub_key_hash` is `decodeAddr (walletAddr w.public_key)` exactly as in
line 36.  After assembling inputs, the payment output and the optional
change output, the id is set to the hash and every input is signed through
the blockchain. -/
def Transaction.new_utxo (decodeAddr : String → List Nat) (walletAddr : List Nat → String)
    (edSign : List Nat → String → List Nat) (H : Transaction → String)
    (w : Wallet) (toA : String) (amount : Int) (db : UtxoMap) (bc : Blockchain) :
    Res Transaction :=
  let pub_key_hash := decodeAddr (walletAddr w.public_key)
  let acc_v := UTXOSet.find_spendable_outputs db pub_key_hash amount
  if acc_v.1 < amount then .error (.rerr "Not Enough balance")
  else
    let vin := buildVin w.public_key acc_v.2
    let vout := [TXOutput.new decodeAddr amount toA]
      ++ (if acc_v.1 > amount then
            [TXOutput.new decodeAddr (acc_v.1 - amount) (walletAddr w.public_key)]
          else [])
    let t0 : Transaction := { id := "", vin := vin, vout := vout }
    let t1 : Transaction := { t0 with id := t0.hashWith H }
    Blockchain.sign_transacton edSign H bc w.secret_key t1

/-! ## Server (src/src/server.rs) -/

/-- `KnownNode` (server.rs lines 79-87): the consecutive-failure counter
(`no_response_counter: i8`; it never leaves 0..=3, far from i8 range). -/
structure KnownNode where
  no_response_counter : Int
  deriving DecidableEq, Repr

/-- The per-peer effect of a failed `TcpStream::connect` in
`Server::send_data` (server.rs lines 248-273): an unknown peer is left
alone; a known peer with counter already ≥ 3 is removed from the directory
(`remove_node`, lines 597-601); otherwise its counter is incremented. -/
def failStep : Option KnownNode → Option KnownNode
  | none => none
  | some n =>
    if n.no_response_counter ≥ 3 then none
    else some { no_response_counter := n.no_response_counter + 1 }

/-- The per-peer effect of a successful connect in `Server::send_data`
(server.rs lines 236-247): a strictly positive counter is reset to 0. -/
def succStep : Option KnownNode → Option KnownNode
  | none => none
  | some n =>
    if n.no_response_counter > 0 then some { no_response_counter := 0 } else some n

/-- `Versionmsg` (server.rs lines 61-66). -/
structure Versionmsg where
  addr_from : String
  version : Int
  best_height : Int
  deriving DecidableEq, Repr

/-- `Blockmsg` (server.rs lines 29-33). -/
structure Blockmsg where
  addr_from : String
  block : Block
  deriving DecidableEq, Repr

/-- `GetBlockmsg` (server.rs lines 35-39). -/
structure GetBlockmsg where
  addr_from : String
  deriving DecidableEq, Repr

/-- `GetDatamsg` (server.rs lines 41-46). -/
structure GetDatamsg where
  addr_from : String
  kind : String
  id : String
  deriving DecidableEq, Repr

/-- `Invmsg` (server.rs lines 48-53). -/
structure Invmsg where
  addr_from : String
  kind : String
  items : List String
  deriving DecidableEq, Repr

/-- `Txmsg` (server.rs lines 55-59). -/
structure Txmsg where
  addr_from : String
  transaction : Transaction
  deriving DecidableEq, Repr

/-- `Message` (server.rs lines 68-77). -/
inductive Message where
  | Addr : List String → Message
  | Version : Versionmsg → Message
  | Tx : Txmsg → Message
  | GetData : GetDatamsg → Message
  | GetBlock : GetBlockmsg → Message
  | Inv : Invmsg → Message
  | Block : Blockmsg → Message
  deriving DecidableEq, Repr

/-- `CMD_LEN` (server.rs line 22). -/
def CMD_LEN : Nat := 12

/-- The `bincode::deserialize` calls of `bytes_to_cmd`, one opaque decoder
per payload type (`none` = malformed payload, surfaced as a `?` error). -/
structure Decoders where
  dAddr : List Nat → Option (List String)
  dBlock : List Nat → Option Blockmsg
  dInv : List Nat → Option Invmsg
  dGetBlock : List Nat → Option GetBlockmsg
  dGetData : List Nat → Option GetDatamsg
  dTx : List Nat → Option Txmsg
  dVersion : List Nat → Option Versionmsg

/-- `bincode::deserialize(data)?` wrapped into a `Message`. -/
def deserTo {α : Type} (d : List Nat → Option α) (f : α → Message) (data : List Nat) :
    Res Message :=
  match d data with
  | some x => .ok (f x)
  | none => .error (.rerr "SerializationError")

/-- `bytes_to_cmd` (server.rs lines 666-705): `&bytes[..CMD_LEN]` panics
when the buffer is shorter than 12 bytes; otherwise the zero-stripped tag
is matched against the known commands, an unknown tag being an error. -/
def bytes_to_cmd (D : Decoders) (bytes : List Nat) : Res Message :=
  if bytes.length < CMD_LEN then .error .panicked
  else
    let cmd := (bytes.take CMD_LEN).filter fun b => b ≠ 0
    let data := bytes.drop CMD_LEN
    if cmd = strBytes "addr" then deserTo D.dAddr Message.Addr data
    else if cmd = strBytes "block" then deserTo D.dBlock Message.Block data
    else if cmd = strBytes "inv" then deserTo D.dInv Message.Inv data
    else if cmd = strBytes "getblocks" then deserTo D.dGetBlock Message.GetBlock data
    else if cmd = strBytes "getdata" then deserTo D.dGetData Message.GetData data
    else if cmd = strBytes "tx" then deserTo D.dTx Message.Tx data
    else if cmd = strBytes "version" then deserTo D.dVersion Message.Version data
    else .error (.rerr "Unknown command in the server")

/-- The parsing stage of `Server::handle_connection` (server.rs lines
644-649): the buffer read from the socket — however short — is handed to
`bytes_to_cmd` with no length check; the dispatch on the parsed command
(lines 651-659) is outside the claims and not modelled. -/
def Server.handle_connection (D : Decoders) (buffer : List Nat) : Res Message :=
  bytes_to_cmd D buffer

/-! ## Concrete data for claim C1 -/

/-- C1 failing input, block 1 (genesis): coinbase `c0` paying 10 to hash
[1]. -/
def c1_c0 : Transaction :=
  { id := "c0",
    vin := [{ txid := "", vout := -1, signature := [], pub_key := [] }],
    vout := [{ value := 10, pub_key_hash := [1] }] }

/-- C1 failing input, block 2: `t1` spends (c0, 0) into two outputs. -/
def c1_t1 : Transaction :=
  { id := "t1",
    vin := [{ txid := "c0", vout := 0, signature := [], pub_key := [] }],
    vout := [{ value := 4, pub_key_hash := [2] }, { value := 6, pub_key_hash := [3] }] }

/-- C1 failing input, block 3: `t2` spends (t1, 0). -/
def c1_t2 : Transaction :=
  { id := "t2",
    vin := [{ txid := "t1", vout := 0, signature := [], pub_key := [] }],
    vout := [{ value := 4, pub_key_hash := [4] }] }

/-- C1 failing input, block 4: `t3` spends (t1, 1), the second output of
`t1`. -/
def c1_t3 : Transaction :=
  { id := "t3",
    vin := [{ txid := "t1", vout := 1, signature := [], pub_key := [] }],
    vout := [{ value := 6, pub_key_hash := [5] }] }

/-- The four-block sequence B1..B4 of the C1 failing input. -/
def c1_blocks : List Block :=
  [ { timestamp := 0, transactions := [c1_c0], prev_block_hash := "", hash := "h1",
      height := 0, nonce := 0 },
    { timestamp := 0, transactions := [c1_t1], prev_block_hash := "h1", hash := "h2",
      height := 1, nonce := 0 },
    { timestamp := 0, transactions := [c1_t2], prev_block_hash := "h2", hash := "h3",
      height := 2, nonce := 0 },
    { timestamp := 0, transactions := [c1_t3], prev_block_hash := "h3", hash := "h4",
      height := 3, nonce := 0 } ]

/-- The chain holding exactly the C1 block sequence, tip = B4. -/
def c1_chain : Blockchain :=
  { tip := "h4",
    store := (c1_blocks.reverse).map fun b => (b.hash, b),
    last := some "h4" }

/-- **C1** (code_bug).  For the block sequence B1..B4 above — every input
spends an output of an earlier block, by its original output index —
applying `UTXOSet::update` block by block from an empty index leaves a
stale entry for `t1` (its output 1, value 6, reported unspent), while
`UTXOSet::reindex` (= `Blockchain::find_utxo` on the chain of the same
blocks) correctly has no entry for `t1`: both of its outputs are spent.
The incremental index and the rebuilt index disagree as maps, refuting the
equivalence the spec declares an invariant.  The cause: `update` stores
compacted output lists but removes by original output index, so after `t2`
spends (t1, 0) the stored list for `t1` has its surviving output at
position 0, and `t3`'s spend of (t1, 1) matches nothing. -/
theorem C1_update_reindex_diverge :
    applyUpdates [] c1_blocks =
      .ok [("t1", [{ value := 6, pub_key_hash := [3] }]),
           ("t2", [{ value := 4, pub_key_hash := [4] }]),
           ("t3", [{ value := 6, pub_key_hash := [5] }])]
    ∧ UTXOSet.reindex c1_chain =
        [("t3", [{ value := 6, pub_key_hash := [5] }]),
         ("t2", [{ value := 4, pub_key_hash := [4] }])]
    ∧ c1_chain.iterBlocks = c1_blocks.reverse
    ∧ (applyUpdates [] c1_blocks).toOption.bind (List.lookup "t1") =
        some [{ value := 6, pub_key_hash := [3] }]
    ∧ List.lookup "t1" (UTXOSet.reindex c1_chain) = none := by
  refine ⟨rfl, by decide, by decide, rfl, by decide⟩

/-! ## Claim C7: coinbase structure and verification -/

/-- **C7** (confirmed).  Every transaction built by
`Transaction::new_coinbase` has exactly one input, with empty previous id
and output index −1, and exactly one output of the fixed `SUBSIDY` to the
recipient's decoded address; `is_coinbase` holds of it, and `verify`
returns `Ok(true)` for every previous-transaction map whatsoever. -/
theorem C7_new_coinbase_coinbase (decodeAddr : String → List Nat)
    (H : Transaction → String) (randKey : List Nat) (toA data : String)
    (edVerify : List Nat → String → List Nat → Bool) (pkParses : List Nat → Bool)
    (prevTxs : String → Option Transaction) :
    (Transaction.new_coinbase decodeAddr H randKey toA data).vin.length = 1
    ∧ (∀ v ∈ (Transaction.new_coinbase decodeAddr H randKey toA data).vin,
        v.txid = "" ∧ v.vout = -1)
    ∧ (Transaction.new_coinbase decodeAddr H randKey toA data).vout =
        [{ value := SUBSIDY, pub_key_hash := decodeAddr toA }]
    ∧ (Transaction.new_coinbase decodeAddr H randKey toA data).is_coinbase = true
    ∧ Transaction.verify edVerify pkParses H prevTxs
        (Transaction.new_coinbase decodeAddr H randKey toA data) = .ok true := by
  refine ⟨rfl, ?_, rfl, rfl, ?_⟩
  · intro v hv
    simp only [Transaction.new_coinbase, List.mem_singleton] at hv
    subst hv
    exact ⟨rfl, rfl⟩
  · simp [Transaction.verify, Transaction.new_coinbase, Transaction.is_coinbase]

/-! ## Claim C10: short wire buffers panic -/

/-- **C10** (confirmed).  For every received buffer shorter than the
12-byte command tag — the empty buffer included — `bytes_to_cmd` panics
(slice `&bytes[..12]` out of bounds) rather than returning a NetworkError,
and `handle_connection`, which forwards the raw socket bytes unchecked,
panics with it. -/
theorem C10_short_buffer_panics (D : Decoders) (bytes : List Nat)
    (h : bytes.length < CMD_LEN) :
    bytes_to_cmd D bytes = .error .panicked
    ∧ Server.handle_connection D bytes = .error .panicked := by
  constructor
  · simp [bytes_to_cmd, h]
  · simp [Server.handle_connection, bytes_to_cmd, h]

/-- Decoders that reject every payload (only the pre-payload stage is
exercised by the C10 witness). -/
def noDecoders : Decoders :=
  { dAddr := fun _ => none, dBlock := fun _ => none, dInv := fun _ => none,
    dGetBlock := fun _ => none, dGetData := fun _ => none, dTx := fun _ => none,
    dVersion := fun _ => none }

/-- Witness for C10 at the empty buffer (a peer that connects and closes
without writing). -/
theorem C10_witness :
    ([] : List Nat).length < CMD_LEN
    ∧ bytes_to_cmd noDecoders [] = .error .panicked
    ∧ Server.handle_connection noDecoders [] = .error .panicked :=
  ⟨by decide, (C10_short_buffer_panics noDecoders [] (by decide)).1,
    (C10_short_buffer_panics noDecoders [] (by decide)).2⟩

/-! ## Claim C9: peer failure counter -/

/-- **C9 counterexample** (the claim as stated is false).  A fresh peer
(counter 0) that fails to accept a connection 3 consecutive times, with no
intervening success, is still in the known-peer directory, with counter 3:
`send_data` removes a peer only when a failure occurs while its counter is
already ≥ 3, i.e. on the fourth consecutive failure. -/
theorem C9_three_failures_peer_still_known :
    failStep (failStep (failStep (some { no_response_counter := 0 }))) =
      some { no_response_counter := 3 } := by
  decide

/-- **C9** (corrected).  On success a known peer's counter becomes 0; a
failure increments the counter while it is below 3 and evicts the peer
once a failure occurs with the counter at 3 — so a fresh peer is evicted
on its 4th consecutive failure and is still known (counter n) after
n ≤ 3 failures. -/
theorem C9_peer_liveness_amended :
    (∀ n : Nat, failStep^[n] (some { no_response_counter := 0 }) =
        if n ≤ 3 then some { no_response_counter := (n : Int) } else none)
    ∧ (∀ c : Int, 0 ≤ c →
        succStep (some { no_response_counter := c }) = some { no_response_counter := 0 }) := by
  constructor
  · intro n
    induction n with
    | zero => simp
    | succ k ih =>
      rw [Function.iterate_succ_apply', ih]
      by_cases hk : k ≤ 3
      · rw [if_pos hk]
        by_cases hk3 : k = 3
        · subst hk3
          simp [failStep]
        · have hk2 : k + 1 ≤ 3 := by omega
          have hke : k ≤ 2 := by omega
          have hlt : ¬((k : Int) ≥ 3) := by
            omega
          rw [if_pos hk2]
          simp only [failStep]
          rw [if_neg hlt]
          simp only [Option.some.injEq, KnownNode.mk.injEq]
          push_cast
          ring
      · rw [if_neg hk]
        have : ¬(k + 1 ≤ 3) := by omega
        simp [failStep, this]
  · intro c hc
    rcases lt_or_eq_of_le hc with h | h
    · simp [succStep, h]
    · simp [succStep, ← h]

/-- Witness for C9: the 4th consecutive failure evicts a fresh peer, and a
success resets a counter of 2 to 0. -/
theorem C9_witness :
    failStep^[4] (some { no_response_counter := 0 }) = none
    ∧ succStep (some { no_response_counter := 2 }) = some { no_response_counter := 0 } := by
  constructor
  · have h := C9_peer_liveness_amended.1 4
    simpa using h
  · exact C9_peer_liveness_amended.2 2 (by decide)

/-! ## Claim C6: add_block idempotence and tip rule -/

/-- **C6** (confirmed).  `Blockchain::add_block` is a no-op (store, "LAST"
and tip untouched) when a block with the same hash is already stored;
otherwise it persists the block and advances the tip (and "LAST") to it
exactly when its height strictly exceeds the current best height. -/
theorem C6_add_block_idempotent_tip (bc : Blockchain) (b : Block) :
    (∀ x, List.lookup b.hash bc.store = some x → bc.add_block b = (bc, .ok ()))
    ∧ (List.lookup b.hash bc.store = none →
       ∀ h, Blockchain.get_best_height { bc with store := storeInsert bc.store b.hash b } = .ok h →
         bc.add_block b =
           (if h < b.height then
              { tip := b.hash, store := storeInsert bc.store b.hash b, last := some b.hash }
            else { bc with store := storeInsert bc.store b.hash b }, .ok ())
         ∧ List.lookup b.hash (bc.add_block b).1.store = some b
         ∧ (bc.tip ≠ b.hash → ((bc.add_block b).1.tip = b.hash ↔ h < b.height))) := by
  constructor
  · intro x hx
    simp [Blockchain.add_block, hx]
  · intro hnone h hbest
    have e1 : bc.add_block b =
        (if h < b.height then
           { tip := b.hash, store := storeInsert bc.store b.hash b, last := some b.hash }
         else { bc with store := storeInsert bc.store b.hash b }, .ok ()) := by
      simp only [Blockchain.add_block, hnone, hbest]
      by_cases hlt : h < b.height
      · rw [if_pos (by exact hlt), if_pos hlt]
      · rw [if_neg (by exact hlt), if_neg hlt]
    refine ⟨e1, ?_, ?_⟩
    · rw [e1]
      by_cases hlt : h < b.height
      · rw [if_pos hlt]
        simp [storeInsert, List.lookup]
      · rw [if_neg hlt]
        simp [storeInsert, List.lookup]
    · intro htip
      rw [e1]
      by_cases hlt : h < b.height
      · rw [if_pos hlt]
        simpa using hlt
      · rw [if_neg hlt]
        simp only []
        constructor
        · intro habs
          exact absurd habs htip
        · intro habs
          exact absurd habs hlt

/-- C6 witness data: a genesis-only chain. -/
def w6_g0 : Transaction :=
  { id := "g0",
    vin := [{ txid := "", vout := -1, signature := [], pub_key := [] }],
    vout := [{ value := 10, pub_key_hash := [1] }] }

/-- C6 witness data: the stored genesis block. -/
def w6_gB : Block :=
  { timestamp := 0, transactions := [w6_g0], prev_block_hash := "", hash := "g",
    height := 0, nonce := 0 }

/-- C6 witness data: the chain holding only the genesis block. -/
def w6_bc : Blockchain := { tip := "g", store := [("g", w6_gB)], last := some "g" }

/-- C6 witness data: a fresh height-1 block. -/
def w6_nb : Block :=
  { timestamp := 0, transactions := [], prev_block_hash := "g", hash := "n",
    height := 1, nonce := 0 }

/-- Witness for C6: re-adding the stored genesis block is a no-op, and
adding a fresh higher block persists it and advances the tip. -/
theorem C6_witness :
    w6_bc.add_block w6_gB = (w6_bc, .ok ())
    ∧ w6_bc.add_block w6_nb =
        (if (0 : Int) < w6_nb.height then
           { tip := w6_nb.hash, store := storeInsert w6_bc.store w6_nb.hash w6_nb,
             last := some w6_nb.hash }
         else { w6_bc with store := storeInsert w6_bc.store w6_nb.hash w6_nb }, .ok ())
    ∧ List.lookup w6_nb.hash (w6_bc.add_block w6_nb).1.store = some w6_nb
    ∧ ((w6_bc.add_block w6_nb).1.tip = w6_nb.hash ↔ (0 : Int) < w6_nb.height) :=
  ⟨(C6_add_block_idempotent_tip w6_bc w6_gB).1 w6_gB rfl,
   ((C6_add_block_idempotent_tip w6_bc w6_nb).2 rfl 0 rfl).1,
   ((C6_add_block_idempotent_tip w6_bc w6_nb).2 rfl 0 rfl).2.1,
   ((C6_add_block_idempotent_tip w6_bc w6_nb).2 rfl 0 rfl).2.2 (by decide)⟩

/-! ## Claim C3: mine_block validation gate -/

/-- If a member of the batch verifies to `Ok(false)`, the batch
verification loop returns an error (either at that transaction or at an
earlier failing one). -/
theorem verifyBatch_error_of_mem (edVerify : List Nat → String → List Nat → Bool)
    (pkParses : List Nat → Bool) (H : Transaction → String) (bc : Blockchain)
    (tx : Transaction) :
    ∀ txs : List Transaction, tx ∈ txs →
      Blockchain.verify_transacton edVerify pkParses H bc tx = .ok false →
      ∃ e, verifyBatch edVerify pkParses H bc txs = .error e := by
  intro txs
  induction txs with
  | nil => intro htx; exact absurd htx (List.not_mem_nil tx)
  | cons t1 rest ih =>
    intro htx hfalse
    rcases List.mem_cons.mp htx with heq | hmem
    · subst heq
      exact ⟨.rerr "ERROR: Invalid transaction", by simp [verifyBatch, hfalse]⟩
    · cases h1 : Blockchain.verify_transacton edVerify pkParses H bc t1 with
      | error e => exact ⟨e, by simp [verifyBatch, h1]⟩
      | ok bv =>
        cases bv with
        | true =>
          obtain ⟨e, he⟩ := ih hmem hfalse
          exact ⟨e, by simp [verifyBatch, h1, he]⟩
        | false =>
          exact ⟨.rerr "ERROR: Invalid transaction", by simp [verifyBatch, h1]⟩

/-- **C3** (confirmed).  If batch verification fails — in particular
whenever some transaction of the batch verifies to false — `mine_block`
returns that error and the chain state (store, "LAST", tip) is returned
untouched: the failed block is never written.  Otherwise the freshly mined
block, linked to the "LAST" hash and of height best + 1, is persisted and
"LAST" and the tip advance to it. -/
theorem C3_mine_block_validation (edVerify : List Nat → String → List Nat → Bool)
    (pkParses : List Nat → Bool) (H : Transaction → String)
    (hashB : String → List Transaction → Nat → String)
    (nonceB : String → List Transaction → Nat) (timeB : Nat)
    (bc : Blockchain) (txs : List Transaction) :
    (∀ e, verifyBatch edVerify pkParses H bc txs = .error e →
       Blockchain.mine_block edVerify pkParses H hashB nonceB timeB bc txs = (bc, .error e))
    ∧ (∀ tx ∈ txs, Blockchain.verify_transacton edVerify pkParses H bc tx = .ok false →
       ∃ e, verifyBatch edVerify pkParses H bc txs = .error e)
    ∧ (verifyBatch edVerify pkParses H bc txs = .ok () →
       ∀ lh, bc.last = some lh →
       ∀ h, bc.get_best_height = .ok h →
         Blockchain.mine_block edVerify pkParses H hashB nonceB timeB bc txs =
           ({ tip := (Block.new_block hashB nonceB timeB txs lh (h + 1)).hash,
              store := storeInsert bc.store
                (Block.new_block hashB nonceB timeB txs lh (h + 1)).hash
                (Block.new_block hashB nonceB timeB txs lh (h + 1)),
              last := some (Block.new_block hashB nonceB timeB txs lh (h + 1)).hash },
            .ok (Block.new_block hashB nonceB timeB txs lh (h + 1)))
         ∧ (Block.new_block hashB nonceB timeB txs lh (h + 1)).height = h + 1
         ∧ (Block.new_block hashB nonceB timeB txs lh (h + 1)).prev_block_hash = lh
         ∧ (Block.new_block hashB nonceB timeB txs lh (h + 1)).transactions = txs) := by
  refine ⟨?_, ?_, ?_⟩
  · intro e he
    simp [Blockchain.mine_block, he]
  · intro tx htx hfalse
    exact verifyBatch_error_of_mem edVerify pkParses H bc tx txs htx hfalse
  · intro hok lh hlast h hbest
    refine ⟨?_, rfl, rfl, rfl⟩
    simp [Blockchain.mine_block, hok, hlast, hbest]

/-- C3 witness data: a syntactically valid transfer whose 64-byte
signature fails the (witness) signature check. -/
def w3_bad : Transaction :=
  { id := "bad",
    vin := [{ txid := "g0", vout := 0, signature := List.replicate 64 0,
              pub_key := List.replicate 32 0 }],
    vout := [{ value := 1, pub_key_hash := [3] }] }

/-- C3 witness data: a coinbase for the successful batch. -/
def w3_cb : Transaction :=
  { id := "c1",
    vin := [{ txid := "", vout := -1, signature := [], pub_key := [] }],
    vout := [{ value := 10, pub_key_hash := [2] }] }

/-- Witness for C3, over the genesis-only chain `w6_bc`: the batch holding
an invalid transfer is rejected with the chain unchanged (and such a
failing member always forces a batch error), while a valid coinbase batch
mines a block of height 1 linked to the tip. -/
theorem C3_witness :
    Blockchain.mine_block (fun _ _ _ => false) (fun _ => true) (fun _ => "h")
        (fun _ _ _ => "n") (fun _ _ => 0) 0 w6_bc [w3_bad] =
      (w6_bc, .error (.rerr "ERROR: Invalid transaction"))
    ∧ (∃ e, verifyBatch (fun _ _ _ => false) (fun _ => true) (fun _ => "h") w6_bc [w3_bad] =
        .error e)
    ∧ Blockchain.mine_block (fun _ _ _ => false) (fun _ => true) (fun _ => "h")
        (fun _ _ _ => "n") (fun _ _ => 0) 0 w6_bc [w3_cb] =
        ({ tip := (Block.new_block (fun _ _ _ => "n") (fun _ _ => 0) 0 [w3_cb] "g" (0 + 1)).hash,
           store := storeInsert w6_bc.store
             (Block.new_block (fun _ _ _ => "n") (fun _ _ => 0) 0 [w3_cb] "g" (0 + 1)).hash
             (Block.new_block (fun _ _ _ => "n") (fun _ _ => 0) 0 [w3_cb] "g" (0 + 1)),
           last := some (Block.new_block (fun _ _ _ => "n") (fun _ _ => 0) 0 [w3_cb] "g" (0 + 1)).hash },
         .ok (Block.new_block (fun _ _ _ => "n") (fun _ _ => 0) 0 [w3_cb] "g" (0 + 1)))
    ∧ (Block.new_block (fun _ _ _ => "n") (fun _ _ => 0) 0 [w3_cb] "g" (0 + 1)).height = 0 + 1 :=
  ⟨(C3_mine_block_validation (fun _ _ _ => false) (fun _ => true) (fun _ => "h")
      (fun _ _ _ => "n") (fun _ _ => 0) 0 w6_bc [w3_bad]).1 _ rfl,
   (C3_mine_block_validation (fun _ _ _ => false) (fun _ => true) (fun _ => "h")
      (fun _ _ _ => "n") (fun _ _ => 0) 0 w6_bc [w3_bad]).2.1 w3_bad
      (List.mem_singleton.mpr rfl) rfl,
   ((C3_mine_block_validation (fun _ _ _ => false) (fun _ => true) (fun _ => "h")
      (fun _ _ _ => "n") (fun _ _ => 0) 0 w6_bc [w3_cb]).2.2 rfl "g" rfl 0 rfl).1,
   ((C3_mine_block_validation (fun _ _ _ => false) (fun _ => true) (fun _ => "h")
      (fun _ _ _ => "n") (fun _ _ => 0) 0 w6_bc [w3_cb]).2.2 rfl "g" rfl 0 rfl).2.1⟩

/-! ## Claim C8: verify — error cases vs Ok(false) -/

/-- The pure yes/no outcome of the signature checks of `Transaction::verify`:
for each input, in order, whether the stored signature verifies against the
stored public key over the recomputed trimmed message. -/
def sigsOk (edVerify : List Nat → String → List Nat → Bool) (H : Transaction → String)
    (prevTxs : String → Option Transaction) (base : Transaction) :
    List TXInput → Nat → Bool
  | [], _ => true
  | v :: vs, i =>
    match mkMsg H prevTxs base i v with
    | none => false
    | some m => edVerify v.pub_key m v.signature && sigsOk edVerify H prevTxs base vs (i + 1)

/-- The guard loop succeeds when every input's previous transaction is
present with a nonempty id. -/
theorem checkPrevLoop_ok (errMsg : String) (prevTxs : String → Option Transaction) :
    ∀ vin : List TXInput,
      (∀ v ∈ vin, ∃ p, prevTxs v.txid = some p ∧ p.id ≠ "") →
      checkPrevLoop errMsg prevTxs vin = .ok () := by
  intro vin
  induction vin with
  | nil => intro _; rfl
  | cons v vs ih =>
    intro hall
    obtain ⟨p, hp, hid⟩ := hall v (List.mem_cons_self v vs)
    have hrest := ih fun x hx => hall x (List.mem_cons_of_mem v hx)
    simp [checkPrevLoop, hp, hid, hrest]

/-- When every input resolves, has well-formed key/signature lengths and a
parsable key, the verification loop returns `Ok` of the pure signature
outcome — never an error. -/
theorem verifyLoop_eq_sigsOk (edVerify : List Nat → String → List Nat → Bool)
    (pkParses : List Nat → Bool) (H : Transaction → String)
    (prevTxs : String → Option Transaction) (base : Transaction) :
    ∀ (vin : List TXInput) (i : Nat),
      (∀ v ∈ vin, (∃ p, prevTxs v.txid = some p ∧ (outAt p v.vout).isSome)
        ∧ v.pub_key.length = 32 ∧ v.signature.length = 64 ∧ pkParses v.pub_key = true) →
      verifyLoop edVerify pkParses H prevTxs base vin i =
        .ok (sigsOk edVerify H prevTxs base vin i) := by
  intro vin
  induction vin with
  | nil => intro i _; rfl
  | cons v vs ih =>
    intro i hall
    obtain ⟨⟨p, hp, ho⟩, hpk, hsig, hparse⟩ := hall v (List.mem_cons_self v vs)
    obtain ⟨o, ho'⟩ := Option.isSome_iff_exists.mp ho
    have hmsg : mkMsg H prevTxs base i v = some (trimmedMsg H base i o.pub_key_hash) := by
      simp [mkMsg, hp, ho']
    have hrest := ih (i + 1) fun x hx => hall x (List.mem_cons_of_mem v hx)
    have hlen : ¬(v.pub_key.length ≠ 32 ∨ v.signature.length ≠ 64) := by
      push_neg
      exact ⟨hpk, hsig⟩
    cases hev : edVerify v.pub_key (trimmedMsg H base i o.pub_key_hash) v.signature with
    | true => simp [verifyLoop, sigsOk, hmsg, hlen, hparse, hev, hrest]
    | false => simp [verifyLoop, sigsOk, hmsg, hlen, hparse, hev]

/-- When some input's previous transaction is nowhere in the chain, the
previous-transaction resolution loop fails with "Transaction is not
found". -/
theorem prevTxsLoop_notfound (bc : Blockchain) :
    ∀ vin : List TXInput,
      (∃ v ∈ vin, findTxInBlocks v.txid bc.iterBlocks = none) →
      prevTxsLoop bc vin = .error (.rerr "Transaction is not found") := by
  intro vin
  induction vin with
  | nil => rintro ⟨v, hv, _⟩; exact absurd hv (List.not_mem_nil v)
  | cons v vs ih =>
    rintro ⟨v', hv', hnone⟩
    cases hfind : findTxInBlocks v.txid bc.iterBlocks with
    | none => simp [prevTxsLoop, Blockchain.find_transaction, hfind]
    | some p =>
      rcases List.mem_cons.mp hv' with heq | hmem
      · subst heq
        rw [hnone] at hfind
        exact absurd hfind (by simp)
      · have hrest := ih ⟨v', hmem, hnone⟩
        simp [prevTxsLoop, Blockchain.find_transaction, hfind, hrest]

/-- **C8** (confirmed).  For a non-coinbase transaction: when a referenced
previous transaction is unknown to the chain, `verify_transacton` (hence
`Transaction::verify` through the blockchain path) fails with the
"Transaction is not found" ValidationError; when every input resolves and
carries a well-formed key and signature, the result is `Ok` of the pure
signature-check outcome — `Ok(false)` exactly when some stored signature
fails to verify against its stored public key, never an error. -/
theorem C8_verify_notfound_vs_okfalse (edVerify : List Nat → String → List Nat → Bool)
    (pkParses : List Nat → Bool) (H : Transaction → String)
    (bc : Blockchain) (t : Transaction) (hnc : t.is_coinbase = false) :
    ((∃ v ∈ t.vin, findTxInBlocks v.txid bc.iterBlocks = none) →
       Blockchain.verify_transacton edVerify pkParses H bc t =
         .error (.rerr "Transaction is not found"))
    ∧ (∀ pairs, Blockchain.get_prev_txs bc t = .ok pairs →
       (∀ v ∈ t.vin,
          (∃ p, List.lookup v.txid pairs = some p ∧ p.id ≠ "" ∧ (outAt p v.vout).isSome)
          ∧ v.pub_key.length = 32 ∧ v.signature.length = 64 ∧ pkParses v.pub_key = true) →
       Blockchain.verify_transacton edVerify pkParses H bc t =
         .ok (sigsOk edVerify H (fun s => List.lookup s pairs) t.trim_copy t.vin 0)) := by
  constructor
  · intro hex
    have hloop := prevTxsLoop_notfound bc t.vin hex
    simp [Blockchain.verify_transacton, hnc, Blockchain.get_prev_txs, hloop]
  · intro pairs hpairs hall
    have hchk : checkPrevLoop "ERROR: Previous transaction is not correct"
        (fun s => List.lookup s pairs) t.vin = .ok () :=
      checkPrevLoop_ok _ _ t.vin fun v hv => ⟨(hall v hv).1.choose,
        (hall v hv).1.choose_spec.1, (hall v hv).1.choose_spec.2.1⟩
    have hloop := verifyLoop_eq_sigsOk edVerify pkParses H
        (fun s => List.lookup s pairs) t.trim_copy t.vin 0
        (fun v hv => ⟨⟨(hall v hv).1.choose, (hall v hv).1.choose_spec.1,
          (hall v hv).1.choose_spec.2.2⟩, (hall v hv).2.1, (hall v hv).2.2.1,
          (hall v hv).2.2.2⟩)
    simp [Blockchain.verify_transacton, hnc, hpairs, Transaction.verify, hchk, hloop]

/-- C8 witness data: a transfer referencing a previous transaction absent
from the chain. -/
def w8_unknown : Transaction :=
  { id := "u",
    vin := [{ txid := "zz", vout := 0, signature := List.replicate 64 0,
              pub_key := List.replicate 32 0 }],
    vout := [{ value := 1, pub_key_hash := [3] }] }

/-- Witness for C8, over the genesis-only chain `w6_bc`: the unknown
reference fails with "Transaction is not found", and the well-formed
transfer with a failing signature yields `Ok(false)`. -/
theorem C8_witness :
    Blockchain.verify_transacton (fun _ _ _ => false) (fun _ => true) (fun _ => "h")
        w6_bc w8_unknown = .error (.rerr "Transaction is not found")
    ∧ Blockchain.verify_transacton (fun _ _ _ => false) (fun _ => true) (fun _ => "h")
        w6_bc w3_bad = .ok false := by
  constructor
  · exact (C8_verify_notfound_vs_okfalse (fun _ _ _ => false) (fun _ => true) (fun _ => "h")
      w6_bc w8_unknown rfl).1 ⟨w8_unknown.vin.head (by simp [w8_unknown]), by
        simp [w8_unknown], rfl⟩
  · have h := (C8_verify_notfound_vs_okfalse (fun _ _ _ => false) (fun _ => true)
      (fun _ => "h") w6_bc w3_bad rfl).2 [("g0", w6_g0)] rfl (by
        intro v hv
        simp only [w3_bad, List.mem_singleton] at hv
        subst hv
        refine ⟨⟨w6_g0, rfl, by decide, by decide⟩, by simp, by simp, rfl⟩)
    exact h

/-! ## Claim C2: sign/verify roundtrip and signature tamper-detection -/

/-- Flip one byte of a byte string (replace byte `j` by its bitwise
complement in a byte). -/
def flipAt : Nat → List Nat → List Nat
  | _, [] => []
  | 0, b :: bs => (b ^^^ 255) :: bs
  | Nat.succ j, b :: bs => b :: flipAt j bs

/-- Flip byte `j` of the stored signature of input `k`. -/
def flipSigIn : List TXInput → Nat → Nat → List TXInput
  | [], _, _ => []
  | v :: vs, 0, j => { v with signature := flipAt j v.signature } :: vs
  | v :: vs, Nat.succ k, j => v :: flipSigIn vs k j

/-- A transaction with byte `j` of input `k`'s stored signature flipped. -/
def flipSig (t : Transaction) (k j : Nat) : Transaction :=
  { t with vin := flipSigIn t.vin k j }

theorem flipAt_length : ∀ (l : List Nat) (j : Nat), (flipAt j l).length = l.length := by
  intro l
  induction l with
  | nil => intro j; cases j <;> rfl
  | cons b bs ih =>
    intro j
    cases j with
    | zero => rfl
    | succ k => simp [flipAt, ih k]

theorem xor255_ne (b : Nat) : b ^^^ 255 ≠ b := by
  intro h
  have h2 : b ^^^ (b ^^^ 255) = b ^^^ b := by rw [h]
  rw [← Nat.xor_assoc, Nat.xor_self, Nat.zero_xor] at h2
  exact absurd h2 (by decide)

theorem flipAt_ne : ∀ (l : List Nat) (j : Nat), j < l.length → flipAt j l ≠ l := by
  intro l
  induction l with
  | nil => intro j hj; simp at hj
  | cons b bs ih =>
    intro j hj
    cases j with
    | zero =>
      intro h
      injection h with h2 h3
      exact xor255_ne b h2
    | succ k =>
      intro h
      injection h with h2 h3
      exact ih k (by simpa using hj) h3

/-- `mkMsg` ignores the stored signature of the input it is computed for. -/
theorem mkMsg_set_sig (H : Transaction → String) (p : String → Option Transaction)
    (base : Transaction) (i : Nat) (v : TXInput) (s : List Nat) :
    mkMsg H p base i { v with signature := s } = mkMsg H p base i v := rfl

theorem setSigs_length (e : List Nat → String → List Nat) (sk : List Nat) :
    ∀ (vin : List TXInput) (ms : List String), ms.length = vin.length →
      (setSigs e sk vin ms).length = vin.length := by
  intro vin
  induction vin with
  | nil => intro ms _; cases ms <;> rfl
  | cons v vs ih =>
    intro ms hlen
    cases ms with
    | nil => simp at hlen
    | cons m ms' =>
      simp only [setSigs, List.length_cons]
      rw [ih ms' (by simpa using hlen)]

theorem setSigs_map_eq {α : Type} (e : List Nat → String → List Nat) (sk : List Nat)
    (f : TXInput → α) (hf : ∀ v s, f { v with signature := s } = f v) :
    ∀ (vin : List TXInput) (ms : List String), ms.length = vin.length →
      (setSigs e sk vin ms).map f = vin.map f := by
  intro vin
  induction vin with
  | nil => intro ms _; cases ms <;> rfl
  | cons v vs ih =>
    intro ms hlen
    cases ms with
    | nil => simp at hlen
    | cons m ms' =>
      simp only [setSigs, List.map_cons]
      rw [hf, ih ms' (by simpa using hlen)]

theorem flipSigIn_map_eq {α : Type} (f : TXInput → α)
    (hf : ∀ v s, f { v with signature := s } = f v) :
    ∀ (vin : List TXInput) (k j : Nat), (flipSigIn vin k j).map f = vin.map f := by
  intro vin
  induction vin with
  | nil => intro k j; rfl
  | cons v vs ih =>
    intro k j
    cases k with
    | zero => simp only [flipSigIn, List.map_cons]; rw [hf]
    | succ k' => simp only [flipSigIn, List.map_cons]; rw [ih]

theorem checkPrevLoop_congr (msg : String) (p : String → Option Transaction) :
    ∀ vin1 vin2 : List TXInput,
      vin1.map (fun v => v.txid) = vin2.map (fun v => v.txid) →
      checkPrevLoop msg p vin1 = checkPrevLoop msg p vin2 := by
  intro vin1
  induction vin1 with
  | nil =>
    intro vin2 h
    cases vin2 with
    | nil => rfl
    | cons b m => simp at h
  | cons a l ih =>
    intro vin2 h
    cases vin2 with
    | nil => simp at h
    | cons b m =>
      simp only [List.map_cons, List.cons.injEq] at h
      simp only [checkPrevLoop, h.1]
      cases p b.txid with
      | none => rfl
      | some q =>
        by_cases hq : q.id = ""
        · simp [hq]
        · simp [hq, ih m h.2]

theorem is_coinbase_congr (id1 id2 : String) (vo1 vo2 : List TXOutput)
    (vin1 vin2 : List TXInput)
    (h : vin1.map (fun v => (v.txid, v.vout)) = vin2.map (fun v => (v.txid, v.vout))) :
    Transaction.is_coinbase ⟨id1, vin1, vo1⟩ = Transaction.is_coinbase ⟨id2, vin2, vo2⟩ := by
  cases vin1 with
  | nil => cases vin2 with
    | nil => rfl
    | cons b m => simp at h
  | cons a l =>
    cases vin2 with
    | nil => simp at h
    | cons b m =>
      cases l with
      | nil =>
        cases m with
        | nil =>
          simp only [List.map_cons, List.map_nil, List.cons.injEq, Prod.mk.injEq] at h
          simp only [Transaction.is_coinbase, h.1.1, h.1.2]
        | cons c n => simp at h
      | cons c n =>
        cases m with
        | nil => simp at h
        | cons d o => rfl

theorem signMsgs_cons_inv (H : Transaction → String) (p : String → Option Transaction)
    (base : Transaction) (v : TXInput) (vs : List TXInput) (i : Nat) (ms : List String)
    (h : signMsgs H p base (v :: vs) i = some ms) :
    ∃ m ms', mkMsg H p base i v = some m ∧ signMsgs H p base vs (i + 1) = some ms'
      ∧ ms = m :: ms' := by
  cases hm : mkMsg H p base i v with
  | none => rw [signMsgs, hm] at h; exact absurd h (by simp)
  | some m =>
    cases hs : signMsgs H p base vs (i + 1) with
    | none => rw [signMsgs, hm, hs] at h; exact absurd h (by simp)
    | some ms' =>
      rw [signMsgs, hm, hs] at h
      exact ⟨m, ms', rfl, rfl, by injection h with h2; exact h2.symm⟩

theorem signMsgs_length (H : Transaction → String) (p : String → Option Transaction)
    (base : Transaction) :
    ∀ (vin : List TXInput) (i : Nat) (ms : List String),
      signMsgs H p base vin i = some ms → ms.length = vin.length := by
  intro vin
  induction vin with
  | nil =>
    intro i ms h
    simp only [signMsgs] at h
    injection h with h2
    rw [← h2]
    rfl
  | cons v vs ih =>
    intro i ms h
    obtain ⟨m, ms', _, hs, hms⟩ := signMsgs_cons_inv H p base v vs i ms h
    subst hms
    simp [ih (i + 1) ms' hs]

theorem signMsgs_some (H : Transaction → String) (p : String → Option Transaction)
    (base : Transaction) :
    ∀ (vin : List TXInput) (i : Nat),
      (∀ v ∈ vin, ∃ pt, p v.txid = some pt ∧ (outAt pt v.vout).isSome) →
      ∃ ms, signMsgs H p base vin i = some ms := by
  intro vin
  induction vin with
  | nil => intro i _; exact ⟨[], rfl⟩
  | cons v vs ih =>
    intro i hall
    obtain ⟨pt, hpt, ho⟩ := hall v (List.mem_cons_self v vs)
    obtain ⟨o, ho'⟩ := Option.isSome_iff_exists.mp ho
    obtain ⟨ms', hms'⟩ := ih (i + 1) fun x hx => hall x (List.mem_cons_of_mem v hx)
    exact ⟨trimmedMsg H base i o.pub_key_hash :: ms', by simp [signMsgs, mkMsg, hpt, ho', hms']⟩

theorem trim_set_vin (t : Transaction) (l : List TXInput)
    (h : l.map trimIn = t.vin.map trimIn) :
    ({ t with vin := l } : Transaction).trim_copy = t.trim_copy := by
  simp only [Transaction.trim_copy]
  rw [h]

/-- Signing and then walking the verification loop over the same messages
succeeds: each input's recomputed trimmed message coincides with the signed
one, the stored key is the signer's public key, and the scheme accepts its
own signatures. -/
theorem verifyLoop_roundtrip (edSign : List Nat → String → List Nat)
    (edVerify : List Nat → String → List Nat → Bool) (pkParses : List Nat → Bool)
    (H : Transaction → String) (p : String → Option Transaction) (base : Transaction)
    (sk pk : List Nat)
    (hparse : pkParses pk = true) (hpkLen : pk.length = 32)
    (hsigLen : ∀ m, (edSign sk m).length = 64)
    (hcomplete : ∀ m, edVerify pk m (edSign sk m) = true) :
    ∀ (vin : List TXInput) (i : Nat) (ms : List String),
      signMsgs H p base vin i = some ms →
      (∀ v ∈ vin, v.pub_key = pk) →
      verifyLoop edVerify pkParses H p base (setSigs edSign sk vin ms) i = .ok true := by
  intro vin
  induction vin with
  | nil =>
    intro i ms h _
    simp only [signMsgs] at h
    injection h with h2
    rw [← h2]
    rfl
  | cons v vs ih =>
    intro i ms h hkeys
    obtain ⟨m, ms', hm, hs, hms⟩ := signMsgs_cons_inv H p base v vs i ms h
    subst hms
    have hkv := hkeys v (List.mem_cons_self v vs)
    have hrest := ih (i + 1) ms' hs fun x hx => hkeys x (List.mem_cons_of_mem v hx)
    simp only [setSigs, verifyLoop, mkMsg_set_sig, hm]
    simp [hkv, hpkLen, hsigLen m, hparse, hcomplete m, hrest]

/-- Flipping a byte of input `k`'s signature makes the verification loop
return `Ok(false)`: inputs before `k` still verify, input `k`'s tampered
signature is rejected by the scheme. -/
theorem verifyLoop_flip (edSign : List Nat → String → List Nat)
    (edVerify : List Nat → String → List Nat → Bool) (pkParses : List Nat → Bool)
    (H : Transaction → String) (p : String → Option Transaction) (base : Transaction)
    (sk pk : List Nat)
    (hparse : pkParses pk = true) (hpkLen : pk.length = 32)
    (hsigLen : ∀ m, (edSign sk m).length = 64)
    (hcomplete : ∀ m, edVerify pk m (edSign sk m) = true)
    (hsec : ∀ m s, s.length = 64 → s ≠ edSign sk m → edVerify pk m s = false) :
    ∀ (vin : List TXInput) (k i : Nat) (ms : List String) (j : Nat),
      signMsgs H p base vin i = some ms →
      (∀ v ∈ vin, v.pub_key = pk) →
      k < vin.length → j < 64 →
      verifyLoop edVerify pkParses H p base (flipSigIn (setSigs edSign sk vin ms) k j) i =
        .ok false := by
  intro vin
  induction vin with
  | nil =>
    intro k i ms j _ _ hk _
    simp at hk
  | cons v vs ih =>
    intro k i ms j h hkeys hk hj
    obtain ⟨m, ms', hm, hs, hms⟩ := signMsgs_cons_inv H p base v vs i ms h
    subst hms
    have hkv := hkeys v (List.mem_cons_self v vs)
    cases k with
    | zero =>
      have hfliplen : (flipAt j (edSign sk m)).length = 64 := by
        rw [flipAt_length]
        exact hsigLen m
      have hfne : flipAt j (edSign sk m) ≠ edSign sk m :=
        flipAt_ne (edSign sk m) j (by rw [hsigLen m]; exact hj)
      have hbad := hsec m (flipAt j (edSign sk m)) hfliplen hfne
      simp only [setSigs, flipSigIn, verifyLoop, mkMsg_set_sig, hm]
      simp [hkv, hpkLen, hfliplen, hparse, hbad]
    | succ k' =>
      have hrest := ih k' (i + 1) ms' j hs
        (fun x hx => hkeys x (List.mem_cons_of_mem v hx)) (by simpa using hk) hj
      simp only [setSigs, flipSigIn, verifyLoop, mkMsg_set_sig, hm]
      simp [hkv, hpkLen, hsigLen m, hparse, hcomplete m, hrest]

/-- Successful `Transaction::sign` produces exactly the input transaction
with the computed signatures stored. -/
theorem sign_eq (edSign : List Nat → String → List Nat) (H : Transaction → String)
    (sk : List Nat) (p : String → Option Transaction) (t : Transaction) (ms : List String)
    (hnc : t.is_coinbase = false) (hsk : sk.length = 32)
    (hprev2 : ∀ v ∈ t.vin, ∃ pt, p v.txid = some pt ∧ pt.id ≠ "")
    (hms : signMsgs H p t.trim_copy t.vin 0 = some ms) :
    Transaction.sign edSign H sk p t = .ok { t with vin := setSigs edSign sk t.vin ms } := by
  have hchk := checkPrevLoop_ok "Error: Previous transaction is not corrent" p t.vin hprev2
  simp [Transaction.sign, hnc, hsk, hchk, hms]

/-- **C2** (confirmed).  For every well-formed non-coinbase transaction
whose inputs all reference known previous transactions at valid output
indices, and whose inputs carry the public key matching the signing secret
key: `sign` succeeds, `verify` of the signed transaction is `Ok(true)`, and
flipping any single byte of any stored input signature turns `verify` into
`Ok(false)`.  The ed25519 primitives are opaque; the hypotheses state their
contract (correct key/signature lengths, acceptance of own signatures, and
rejection of any other 64-byte string — the idealization of unforgeability
under which byte-flips are detected). -/
theorem C2_sign_verify_roundtrip (edSign : List Nat → String → List Nat)
    (edVerify : List Nat → String → List Nat → Bool) (pkParses : List Nat → Bool)
    (H : Transaction → String) (sk pk : List Nat)
    (prevTxs : String → Option Transaction) (t : Transaction)
    (hsk : sk.length = 32) (hnc : t.is_coinbase = false)
    (hkeys : ∀ v ∈ t.vin, v.pub_key = pk)
    (hprev : ∀ v ∈ t.vin, ∃ pt, prevTxs v.txid = some pt ∧ pt.id ≠ ""
      ∧ (outAt pt v.vout).isSome)
    (hpkLen : pk.length = 32)
    (hsigLen : ∀ m, (edSign sk m).length = 64)
    (hparse : pkParses pk = true)
    (hcomplete : ∀ m, edVerify pk m (edSign sk m) = true)
    (hsec : ∀ m s, s.length = 64 → s ≠ edSign sk m → edVerify pk m s = false) :
    ∃ t', Transaction.sign edSign H sk prevTxs t = .ok t'
      ∧ Transaction.verify edVerify pkParses H prevTxs t' = .ok true
      ∧ ∀ k j, k < t'.vin.length → j < 64 →
          Transaction.verify edVerify pkParses H prevTxs (flipSig t' k j) = .ok false := by
  obtain ⟨ms, hms⟩ := signMsgs_some H prevTxs t.trim_copy t.vin 0 fun v hv =>
    ⟨(hprev v hv).choose, (hprev v hv).choose_spec.1, (hprev v hv).choose_spec.2.2⟩
  have hlen : ms.length = t.vin.length :=
    signMsgs_length H prevTxs t.trim_copy t.vin 0 ms hms
  have hkeysEq : (setSigs edSign sk t.vin ms).map (fun v => (v.txid, v.vout)) =
      t.vin.map (fun v => (v.txid, v.vout)) :=
    setSigs_map_eq edSign sk (fun v => (v.txid, v.vout)) (fun _ _ => rfl) t.vin ms hlen
  have htxids : (setSigs edSign sk t.vin ms).map (fun v => v.txid) =
      t.vin.map (fun v => v.txid) :=
    setSigs_map_eq edSign sk (fun v => v.txid) (fun _ _ => rfl) t.vin ms hlen
  have htrims : (setSigs edSign sk t.vin ms).map trimIn = t.vin.map trimIn :=
    setSigs_map_eq edSign sk trimIn (fun _ _ => rfl) t.vin ms hlen
  have hncs : ({ t with vin := setSigs edSign sk t.vin ms } : Transaction).is_coinbase
      = false :=
    (is_coinbase_congr t.id t.id t.vout t.vout _ t.vin hkeysEq).trans hnc
  have htrim : ({ t with vin := setSigs edSign sk t.vin ms } : Transaction).trim_copy
      = t.trim_copy := trim_set_vin t _ htrims
  have hchkT : checkPrevLoop "ERROR: Previous transaction is not correct" prevTxs t.vin
      = .ok () :=
    checkPrevLoop_ok _ prevTxs t.vin fun v hv =>
      ⟨(hprev v hv).choose, (hprev v hv).choose_spec.1, (hprev v hv).choose_spec.2.1⟩
  have hchk1 : checkPrevLoop "ERROR: Previous transaction is not correct" prevTxs
      (setSigs edSign sk t.vin ms) = .ok () :=
    (checkPrevLoop_congr _ prevTxs _ t.vin htxids).trans hchkT
  refine ⟨{ t with vin := setSigs edSign sk t.vin ms },
    sign_eq edSign H sk prevTxs t ms hnc hsk (fun v hv =>
      ⟨(hprev v hv).choose, (hprev v hv).choose_spec.1, (hprev v hv).choose_spec.2.1⟩)
      hms, ?_, ?_⟩
  · have hloop := verifyLoop_roundtrip edSign edVerify pkParses H prevTxs t.trim_copy
      sk pk hparse hpkLen hsigLen hcomplete t.vin 0 ms hms hkeys
    simp [Transaction.verify, hncs, hchk1, htrim, hloop]
  · intro k j hk hj
    have hk0 : k < (setSigs edSign sk t.vin ms).length := hk
    have hk1 : k < t.vin.length := by
      rw [setSigs_length edSign sk t.vin ms hlen] at hk0
      exact hk0
    have hflipKeys : (flipSigIn (setSigs edSign sk t.vin ms) k j).map
        (fun v => (v.txid, v.vout)) = t.vin.map (fun v => (v.txid, v.vout)) :=
      (flipSigIn_map_eq (fun v => (v.txid, v.vout)) (fun _ _ => rfl) _ k j).trans hkeysEq
    have hflipTxids : (flipSigIn (setSigs edSign sk t.vin ms) k j).map (fun v => v.txid) =
        t.vin.map (fun v => v.txid) :=
      (flipSigIn_map_eq (fun v => v.txid) (fun _ _ => rfl) _ k j).trans htxids
    have hflipTrims : (flipSigIn (setSigs edSign sk t.vin ms) k j).map trimIn =
        t.vin.map trimIn :=
      (flipSigIn_map_eq trimIn (fun _ _ => rfl) _ k j).trans htrims
    have hnc2 : ({ t with vin := flipSigIn (setSigs edSign sk t.vin ms) k j } :
        Transaction).is_coinbase = false :=
      (is_coinbase_congr t.id t.id t.vout t.vout _ t.vin hflipKeys).trans hnc
    have htrim2 : ({ t with vin := flipSigIn (setSigs edSign sk t.vin ms) k j } :
        Transaction).trim_copy = t.trim_copy := trim_set_vin t _ hflipTrims
    have hchk2 : checkPrevLoop "ERROR: Previous transaction is not correct" prevTxs
        (flipSigIn (setSigs edSign sk t.vin ms) k j) = .ok () :=
      (checkPrevLoop_congr _ prevTxs _ t.vin hflipTxids).trans hchkT
    have hloopf := verifyLoop_flip edSign edVerify pkParses H prevTxs t.trim_copy sk pk
      hparse hpkLen hsigLen hcomplete hsec t.vin k 0 ms j hms hkeys hk1 hj
    show Transaction.verify edVerify pkParses H prevTxs
      { t with vin := flipSigIn (setSigs edSign sk t.vin ms) k j } = .ok false
    simp [Transaction.verify, hnc2, hchk2, htrim2, hloopf]

/-- Witness signature scheme: the "signature" of a message is its bytes
padded/truncated to 64; it satisfies the scheme contract assumed by the
roundtrip theorem. -/
def toySig (m : String) : List Nat := (strBytes m ++ List.replicate 64 0).take 64

/-- Witness secret (= public) key: 32 zero bytes. -/
def toySk : List Nat := List.replicate 32 0

/-- Witness signing function. -/
def toySign (_sk : List Nat) (m : String) : List Nat := toySig m

/-- Witness verification function: accepts exactly the witness signature
under the witness key. -/
def toyVerify (pk : List Nat) (m : String) (s : List Nat) : Bool :=
  s == toySig m && pk == toySk

/-- Witness previous transaction: one output, index 0. -/
def w2_prev : Transaction :=
  { id := "p", vin := [], vout := [{ value := 7, pub_key_hash := [9] }] }

/-- Witness transaction to sign: one input spending (p, 0). -/
def w2_t : Transaction :=
  { id := "x",
    vin := [{ txid := "p", vout := 0, signature := [], pub_key := toySk }],
    vout := [{ value := 5, pub_key_hash := [1] }] }

/-- Witness previous-transaction map. -/
def w2_prevTxs : String → Option Transaction :=
  fun s => if s = "p" then some w2_prev else none

/-- Witness for C2 at the concrete transaction `w2_t` and the witness
scheme. -/
theorem C2_witness :
    ∃ t', Transaction.sign toySign (fun _ => "h") toySk w2_prevTxs w2_t = .ok t'
      ∧ Transaction.verify toyVerify (fun _ => true) (fun _ => "h") w2_prevTxs t' = .ok true
      ∧ ∀ k j, k < t'.vin.length → j < 64 →
          Transaction.verify toyVerify (fun _ => true) (fun _ => "h") w2_prevTxs
            (flipSig t' k j) = .ok false := by
  refine C2_sign_verify_roundtrip toySign toyVerify (fun _ => true) (fun _ => "h")
    toySk toySk w2_prevTxs w2_t ?_ ?_ ?_ ?_ ?_ ?_ ?_ ?_ ?_
  · simp [toySk]
  · decide
  · intro v hv
    simp only [w2_t, List.mem_singleton] at hv
    subst hv
    rfl
  · intro v hv
    simp only [w2_t, List.mem_singleton] at hv
    subst hv
    exact ⟨w2_prev, rfl, by decide, by decide⟩
  · simp [toySk]
  · intro m
    simp [toySign, toySig, strBytes]
  · rfl
  · intro m
    simp [toyVerify, toySign]
  · intro m s _ hne
    have hb : (s == toySig m) = false := beq_eq_false_iff_ne.mpr (by simpa [toySign] using hne)
    simp [toyVerify, hb]

/-! ## Claim C4: new_utxo structure -/

/-- Successful `Transaction::sign` only stores signatures: outputs, id, and
every signature-independent view of the inputs are unchanged. -/
theorem sign_preserves (edSign : List Nat → String → List Nat) (H : Transaction → String)
    (sk : List Nat) (p : String → Option Transaction) (t t' : Transaction)
    (h : Transaction.sign edSign H sk p t = .ok t') :
    t'.vout = t.vout ∧ t'.id = t.id
    ∧ ∀ (α : Type) (f : TXInput → α), (∀ v s, f { v with signature := s } = f v) →
        t'.vin.map f = t.vin.map f := by
  unfold Transaction.sign at h
  by_cases hcb : t.is_coinbase
  · rw [if_pos hcb] at h
    injection h with h2
    subst h2
    exact ⟨rfl, rfl, fun α f hf => rfl⟩
  · rw [if_neg hcb] at h
    by_cases hsk : sk.length ≠ 32
    · rw [if_pos hsk] at h
      exact absurd h (by simp)
    · rw [if_neg hsk] at h
      cases hchk : checkPrevLoop "Error: Previous transaction is not corrent" p t.vin with
      | error e => rw [hchk] at h; exact absurd h (by simp)
      | ok u =>
        rw [hchk] at h
        cases hms : signMsgs H p t.trim_copy t.vin 0 with
        | none => rw [hms] at h; exact absurd h (by simp)
        | some ms =>
          rw [hms] at h
          injection h with h2
          subst h2
          exact ⟨rfl, rfl, fun α f hf =>
            setSigs_map_eq edSign sk f hf t.vin ms
              (signMsgs_length H p t.trim_copy t.vin 0 ms hms)⟩

/-- Lift of `sign_preserves` through `Blockchain::sign_transacton`. -/
theorem sign_transacton_preserves (edSign : List Nat → String → List Nat)
    (H : Transaction → String) (bc : Blockchain) (sk : List Nat) (t t' : Transaction)
    (h : Blockchain.sign_transacton edSign H bc sk t = .ok t') :
    t'.vout = t.vout ∧ t'.id = t.id
    ∧ ∀ (α : Type) (f : TXInput → α), (∀ v s, f { v with signature := s } = f v) →
        t'.vin.map f = t.vin.map f := by
  unfold Blockchain.sign_transacton at h
  cases hg : bc.get_prev_txs t with
  | error e => rw [hg] at h; exact absurd h (by simp)
  | ok pairs =>
    rw [hg] at h
    exact sign_preserves edSign H sk (fun s => List.lookup s pairs) t t' h

/-- `buildVin` makes exactly one input per accumulated (txid, index) pair. -/
theorem buildVin_pairs (pk : List Nat) :
    ∀ m : List (String × List Int),
      (buildVin pk m).map (fun v => (v.txid, v.vout)) =
        m.flatMap fun p => p.2.map fun i => (p.1, i) := by
  intro m
  induction m with
  | nil => rfl
  | cons e rest ih =>
    cases e with
    | mk txid idxs =>
      simp only [buildVin, List.map_append, List.map_map, List.flatMap_cons, ih,
        List.append_cancel_right_eq]
      simp [Function.comp]

/-- Every `buildVin` input carries the sender's public key. -/
theorem buildVin_pub_key (pk : List Nat) :
    ∀ m : List (String × List Int), ∀ v ∈ buildVin pk m, v.pub_key = pk := by
  intro m
  induction m with
  | nil => intro v hv; exact absurd hv (List.not_mem_nil v)
  | cons e rest ih =>
    cases e with
    | mk txid idxs =>
      intro v hv
      rcases List.mem_append.mp hv with hl | hr
      · obtain ⟨i, _, hvi⟩ := List.mem_map.mp hl
        rw [← hvi]
      · exact ih v hr

theorem map_const_of_map_eq {α β : Type} (g : α → β) (c : β) (l1 l2 : List α)
    (h : l1.map g = l2.map g) (hall : ∀ x ∈ l2, g x = c) : ∀ y ∈ l1, g y = c := by
  intro y hy
  have hmem : g y ∈ l1.map g := List.mem_map_of_mem g hy
  rw [h] at hmem
  obtain ⟨x, hx, hgx⟩ := List.mem_map.mp hmem
  rw [← hgx]
  exact hall x hx

/-- **C4** (confirmed).  With `(acc, m)` the result of
`find_spendable_outputs` for the sender: `new_utxo` fails with the
"Not Enough balance" ValidationError when `acc < amount`; any successful
result implies `amount ≤ acc` and is a transaction with one input per
consumed (txid, index) pair (each carrying the sender's public key), a
first output of exactly `amount` to the recipient, and a change output of
exactly `acc − amount` back to the sender present iff `acc > amount`. -/
theorem C4_new_utxo_structure (decodeAddr : String → List Nat)
    (walletAddr : List Nat → String) (edSign : List Nat → String → List Nat)
    (H : Transaction → String) (w : Wallet) (toA : String) (amount : Int)
    (db : UtxoMap) (bc : Blockchain) (acc : Int) (m : List (String × List Int))
    (hfso : UTXOSet.find_spendable_outputs db (decodeAddr (walletAddr w.public_key)) amount
      = (acc, m)) :
    (acc < amount →
      Transaction.new_utxo decodeAddr walletAddr edSign H w toA amount db bc =
        .error (.rerr "Not Enough balance"))
    ∧ (∀ t, Transaction.new_utxo decodeAddr walletAddr edSign H w toA amount db bc = .ok t →
        amount ≤ acc
        ∧ t.vout = [TXOutput.new decodeAddr amount toA]
            ++ (if acc > amount then
                  [TXOutput.new decodeAddr (acc - amount) (walletAddr w.public_key)]
                else [])
        ∧ t.vin.map (fun v => (v.txid, v.vout)) = (m.flatMap fun p => p.2.map fun i => (p.1, i))
        ∧ ∀ v ∈ t.vin, v.pub_key = w.public_key) := by
  constructor
  · intro hlt
    simp only [Transaction.new_utxo, hfso]
    rw [if_pos hlt]
  · intro t ht
    simp only [Transaction.new_utxo, hfso] at ht
    by_cases hlt : acc < amount
    · rw [if_pos hlt] at ht
      exact absurd ht (by simp)
    · rw [if_neg hlt] at ht
      obtain ⟨hvout, hid, hmap⟩ := sign_transacton_preserves edSign H bc w.secret_key _ t ht
      refine ⟨not_lt.mp hlt, ?_, ?_, ?_⟩
      · exact hvout
      · rw [hmap (String × Int) (fun v => (v.txid, v.vout)) (fun _ _ => rfl)]
        exact buildVin_pairs w.public_key m
      · exact map_const_of_map_eq (fun v => v.pub_key) w.public_key t.vin
          (buildVin w.public_key m)
          (hmap (List Nat) (fun v => v.pub_key) (fun _ _ => rfl))
          (buildVin_pub_key w.public_key m)

/-- C4 witness data: sender wallet (32-byte zero keys). -/
def w4_wallet : Wallet := { secret_key := toySk, public_key := toySk }

/-- C4 witness data: utxo store with one spendable output of 10 for the
sender's address hash [7]. -/
def w4_db : UtxoMap := [("g0", [{ value := 10, pub_key_hash := [7] }])]

/-- C4 witness data: the signed transfer `new_utxo` produces for amount 4. -/
def w4_tx : Transaction :=
  { id := "h",
    vin := [{ txid := "g0", vout := 0, signature := toySig "h", pub_key := toySk }],
    vout := [{ value := 4, pub_key_hash := [7] }, { value := 6, pub_key_hash := [7] }] }

/-- Witness for C4 over the genesis-only chain `w6_bc`: amount 20 exceeds
the balance 10 and fails; amount 4 succeeds with a 4-output to the
recipient, a 6-change output, one input per consumed pair, sender's key on
the input. -/
theorem C4_witness :
    Transaction.new_utxo (fun _ => [7]) (fun _ => "W") toySign (fun _ => "h")
        w4_wallet "X" 20 w4_db w6_bc = .error (.rerr "Not Enough balance")
    ∧ ((4 : Int) ≤ 10
       ∧ w4_tx.vout = [TXOutput.new (fun _ => [7]) 4 "X"]
           ++ (if (10 : Int) > 4 then [TXOutput.new (fun _ => [7]) (10 - 4) "W"] else [])
       ∧ w4_tx.vin.map (fun v => (v.txid, v.vout)) =
           ([("g0", [0])] : List (String × List Int)).flatMap
             (fun p => p.2.map fun i => (p.1, i))
       ∧ ∀ v ∈ w4_tx.vin, v.pub_key = w4_wallet.public_key) :=
  ⟨(C4_new_utxo_structure (fun _ => [7]) (fun _ => "W") toySign (fun _ => "h")
      w4_wallet "X" 20 w4_db w6_bc 10 [("g0", [0])] rfl).1 (by decide),
   (C4_new_utxo_structure (fun _ => [7]) (fun _ => "W") toySign (fun _ => "h")
      w4_wallet "X" 4 w4_db w6_bc 10 [("g0", [0])] rfl).2 w4_tx rfl⟩

/-! ## Claim C5: find_spendable_outputs -/

/-- The value of the output that a selected (txid, index) pair references
in the utxo store (0 when the reference is dangling — the theorems show
selected pairs never dangle). -/
def pairValue (db : UtxoMap) (t : String) (i : Int) : Int :=
  match List.lookup t db with
  | some outs =>
    match outs.get? i.toNat with
    | some o => o.value
    | none => 0
  | none => 0

/-- Total value of the outputs referenced by a selection. -/
def selSum (db : UtxoMap) (m : List (String × List Int)) : Int :=
  (m.map fun p => (p.2.map (pairValue db p.1)).sum).sum

theorem selSum_cons (db : UtxoMap) (p : String × List Int) (m : List (String × List Int)) :
    selSum db (p :: m) = (p.2.map (pairValue db p.1)).sum + selSum db m := by
  simp [selSum]

theorem lookup_none_not_mem {β : Type} (k : String) :
    ∀ m : List (String × β), List.lookup k m = none → k ∉ m.map Prod.fst := by
  intro m
  induction m with
  | nil => intro _ h; simp at h
  | cons q rest ih =>
    cases q with
    | mk k1 v1 =>
      intro h
      by_cases hk : k = k1
      · have hb : (k == k1) = true := beq_iff_eq.mpr hk
        simp [List.lookup, hb] at h
      · have hb : (k == k1) = false := beq_eq_false_iff_ne.mpr hk
        simp only [List.lookup, hb] at h
        simp only [List.map_cons, List.mem_cons]
        push_neg
        exact ⟨hk, ih h⟩

theorem lookup_of_mem_nodup {β : Type} :
    ∀ (m : List (String × β)) (p : String × β), (m.map Prod.fst).Nodup → p ∈ m →
      List.lookup p.1 m = some p.2 := by
  intro m
  induction m with
  | nil => intro p _ hp; exact absurd hp (List.not_mem_nil p)
  | cons q rest ih =>
    intro p hnd hp
    cases q with
    | mk k1 v1 =>
      have hnd2 : (k1 :: rest.map Prod.fst).Nodup := hnd
      have hnd' := List.nodup_cons.mp hnd2
      rcases List.mem_cons.mp hp with heq | hmem
      · subst heq
        simp [List.lookup]
      · have hk : p.1 ≠ k1 := by
          intro hq
          apply hnd'.1
          rw [← hq]
          exact List.mem_map_of_mem Prod.fst hmem
        have hb : (p.1 == k1) = false := beq_eq_false_iff_ne.mpr hk
        simp only [List.lookup, hb]
        exact ih p hnd'.2 hmem

theorem mem_of_lookup {β : Type} (k : String) (l : β) :
    ∀ m : List (String × β), List.lookup k m = some l → (k, l) ∈ m := by
  intro m
  induction m with
  | nil => intro h; simp [List.lookup] at h
  | cons q rest ih =>
    cases q with
    | mk k1 v1 =>
      intro h
      by_cases hk : k = k1
      · have hb : (k == k1) = true := beq_iff_eq.mpr hk
        simp only [List.lookup, hb] at h
        injection h with h2
        subst h2
        subst hk
        exact List.mem_cons_self _ _
      · have hb : (k == k1) = false := beq_eq_false_iff_ne.mpr hk
        simp only [List.lookup, hb] at h
        exact List.mem_cons_of_mem _ (ih h)

theorem lookup_append_of_none {β : Type} (k : String) :
    ∀ (m l2 : List (String × β)), List.lookup k m = none →
      List.lookup k (m ++ l2) = List.lookup k l2 := by
  intro m
  induction m with
  | nil => intro l2 _; rfl
  | cons q rest ih =>
    cases q with
    | mk k1 v1 =>
      intro l2 h
      by_cases hk : k = k1
      · have hb : (k == k1) = true := beq_iff_eq.mpr hk
        simp [List.lookup, hb] at h
      · have hb : (k == k1) = false := beq_eq_false_iff_ne.mpr hk
        simp only [List.lookup, hb] at h
        simp only [List.cons_append, List.lookup, hb]
        exact ih l2 h

theorem lookup_map_push_entries {β : Type} (k : String) (x : β) :
    ∀ (m : List (String × List β)) (l : List β), List.lookup k m = some l →
      List.lookup k (m.map fun p => if p.1 = k then (p.1, p.2 ++ [x]) else p) =
        some (l ++ [x]) := by
  intro m
  induction m with
  | nil => intro l hl; simp [List.lookup] at hl
  | cons q rest ih =>
    cases q with
    | mk k1 v1 =>
      intro l hl
      by_cases hk : k = k1
      · subst hk
        simp only [List.lookup, beq_self_eq_true] at hl
        injection hl with hl2
        subst hl2
        rw [List.map_cons]
        dsimp only
        rw [if_pos rfl]
        simp [List.lookup]
      · have hb : (k == k1) = false := beq_eq_false_iff_ne.mpr hk
        have hne : k1 ≠ k := Ne.symm hk
        simp only [List.lookup, hb] at hl
        rw [List.map_cons]
        dsimp only
        rw [if_neg hne]
        simp only [List.lookup, hb]
        exact ih l hl

theorem lookup_map_push_ne {β : Type} (k k' : String) (x : β) (hk : k' ≠ k) :
    ∀ m : List (String × List β),
      List.lookup k' (m.map fun p => if p.1 = k then (p.1, p.2 ++ [x]) else p) =
        List.lookup k' m := by
  intro m
  induction m with
  | nil => rfl
  | cons q rest ih =>
    cases q with
    | mk k1 v1 =>
      by_cases hq : k1 = k
      · subst hq
        have hb2 : (k' == k1) = false := beq_eq_false_iff_ne.mpr hk
        rw [List.map_cons]
        dsimp only
        rw [if_pos rfl]
        simp only [List.lookup, hb2]
        exact ih
      · rw [List.map_cons]
        dsimp only
        rw [if_neg hq]
        simp only [List.lookup]
        by_cases hq2 : k' = k1
        · have hb2 : (k' == k1) = true := beq_iff_eq.mpr hq2
          simp [hb2]
        · have hb2 : (k' == k1) = false := beq_eq_false_iff_ne.mpr hq2
          simp only [hb2]
          exact ih

theorem lookup_append_single_ne {β : Type} (k k' : String) (x : List β) (hk : k' ≠ k) :
    ∀ m : List (String × List β), List.lookup k' (m ++ [(k, x)]) = List.lookup k' m := by
  intro m
  induction m with
  | nil =>
    have hb : (k' == k) = false := beq_eq_false_iff_ne.mpr hk
    simp [List.lookup, hb]
  | cons q rest ih =>
    cases q with
    | mk k1 v1 =>
      by_cases hq2 : k' = k1
      · have hb2 : (k' == k1) = true := beq_iff_eq.mpr hq2
        simp [List.cons_append, List.lookup, hb2]
      · have hb2 : (k' == k1) = false := beq_eq_false_iff_ne.mpr hq2
        simp only [List.cons_append, List.lookup, hb2]
        exact ih

theorem lookup_mapPush_self {β : Type} (k : String) (x : β)
    (m : List (String × List β)) :
    List.lookup k (mapPush m k x) = some ((List.lookup k m).getD [] ++ [x]) := by
  cases hl : List.lookup k m with
  | none =>
    simp only [mapPush, hl]
    rw [lookup_append_of_none k m _ hl]
    simp [List.lookup]
  | some l =>
    simp only [mapPush, hl, Option.getD_some]
    exact lookup_map_push_entries k x m l hl

theorem lookup_mapPush_ne {β : Type} (k k' : String) (x : β) (hk : k' ≠ k)
    (m : List (String × List β)) :
    List.lookup k' (mapPush m k x) = List.lookup k' m := by
  cases hl : List.lookup k m with
  | none =>
    simp only [mapPush, hl]
    exact lookup_append_single_ne k k' [x] hk m
  | some l =>
    simp only [mapPush, hl]
    exact lookup_map_push_ne k k' x hk m

theorem mapPush_fst {β : Type} (k : String) (x : β) (m : List (String × List β)) :
    (mapPush m k x).map Prod.fst = m.map Prod.fst
      ∨ ((mapPush m k x).map Prod.fst = m.map Prod.fst ++ [k]
          ∧ List.lookup k m = none) := by
  cases hl : List.lookup k m with
  | none =>
    right
    refine ⟨?_, rfl⟩
    simp only [mapPush, hl]
    simp
  | some l =>
    left
    simp only [mapPush, hl, List.map_map]
    apply List.map_congr_left
    intro p _
    by_cases hc : p.1 = k
    · simp [Function.comp, hc]
    · simp [Function.comp, if_neg hc]

theorem mapPush_keys_nodup {β : Type} (k : String) (x : β)
    (m : List (String × List β)) (h : (m.map Prod.fst).Nodup) :
    ((mapPush m k x).map Prod.fst).Nodup := by
  rcases mapPush_fst k x m with heq | ⟨heq, hnone⟩
  · rw [heq]; exact h
  · rw [heq]
    have hnm := lookup_none_not_mem k m hnone
    simp [List.nodup_append, h, hnm]

theorem selSum_map_entries (db : UtxoMap) (k : String) (x : Int) :
    ∀ (m : List (String × List Int)) (l : List Int),
      (m.map Prod.fst).Nodup → List.lookup k m = some l →
      selSum db (m.map fun p => if p.1 = k then (p.1, p.2 ++ [x]) else p) =
        selSum db m + pairValue db k x := by
  intro m
  induction m with
  | nil => intro l _ hl; simp [List.lookup] at hl
  | cons q rest ih =>
    cases q with
    | mk k1 v1 =>
      intro l hnd hl
      have hnd2 : (k1 :: rest.map Prod.fst).Nodup := hnd
      have hnd' := List.nodup_cons.mp hnd2
      by_cases hk : k = k1
      · subst hk
        have hrest : (rest.map fun p => if p.1 = k then (p.1, p.2 ++ [x]) else p)
            = rest := by
          conv_rhs => rw [← List.map_id rest]
          apply List.map_congr_left
          intro p hp
          have hpk : p.1 ≠ k := by
            intro hq
            apply hnd'.1
            rw [← hq]
            exact List.mem_map_of_mem Prod.fst hp
          simp [if_neg hpk, id]
        rw [List.map_cons]
        dsimp only
        rw [if_pos rfl, hrest]
        rw [selSum_cons, selSum_cons]
        simp only [List.map_append, List.sum_append, List.map_cons, List.map_nil,
          List.sum_cons, List.sum_nil]
        ring
      · have hb : (k == k1) = false := beq_eq_false_iff_ne.mpr hk
        have hne : k1 ≠ k := Ne.symm hk
        simp only [List.lookup, hb] at hl
        rw [List.map_cons]
        dsimp only
        rw [if_neg hne]
        rw [selSum_cons, selSum_cons, ih l hnd'.2 hl]
        ring

theorem selSum_mapPush (db : UtxoMap) (k : String) (x : Int)
    (m : List (String × List Int)) (hnd : (m.map Prod.fst).Nodup) :
    selSum db (mapPush m k x) = selSum db m + pairValue db k x := by
  cases hl : List.lookup k m with
  | some l =>
    simp only [mapPush, hl]
    exact selSum_map_entries db k x m l hnd hl
  | none =>
    simp only [mapPush, hl]
    simp [selSum, List.map_append, List.sum_append]

/-- Loop invariants of the inner output scan of `find_spendable_outputs`:
starting from a selection `m` whose txid entry only holds indices below
`idx`, with `selSum db m = acc`, the scan of `full.drop idx` keeps the
selection well-formed (distinct keys, distinct indices), keeps the
accumulated total equal to the selected value, leaves other keys alone,
preserves earlier picks, is monotone for non-negative values, and — when it
ends below `amount` — has picked every matching output position. -/
theorem fsoOuts_spec (db : UtxoMap) (pkh : List Nat) (amount : Int) (txid : String)
    (full : List TXOutput) (hdb : List.lookup txid db = some full) :
    ∀ (outs : List TXOutput) (idx : Nat) (acc : Int) (m : List (String × List Int)),
      full.drop idx = outs →
      (m.map Prod.fst).Nodup →
      (∀ p ∈ m, p.2.Nodup) →
      selSum db m = acc →
      (∀ l, List.lookup txid m = some l → ∀ x ∈ l, x < (idx : Int)) →
      (((fsoOuts pkh amount txid outs idx acc m).2.map Prod.fst).Nodup
      ∧ (∀ p ∈ (fsoOuts pkh amount txid outs idx acc m).2, p.2.Nodup)
      ∧ selSum db (fsoOuts pkh amount txid outs idx acc m).2 =
          (fsoOuts pkh amount txid outs idx acc m).1
      ∧ (∀ k', k' ≠ txid →
          List.lookup k' (fsoOuts pkh amount txid outs idx acc m).2 = List.lookup k' m)
      ∧ (∀ l x, List.lookup txid m = some l → x ∈ l →
          ∃ l', List.lookup txid (fsoOuts pkh amount txid outs idx acc m).2 = some l'
            ∧ x ∈ l')
      ∧ ((∀ o ∈ outs, 0 ≤ o.value) → acc ≤ (fsoOuts pkh amount txid outs idx acc m).1)
      ∧ ((∀ o ∈ outs, 0 ≤ o.value) →
          (fsoOuts pkh amount txid outs idx acc m).1 < amount →
          ∀ j o2, idx ≤ j → full.get? j = some o2 → o2.pub_key_hash = pkh →
            ∃ l', List.lookup txid (fsoOuts pkh amount txid outs idx acc m).2 = some l'
              ∧ (j : Int) ∈ l')) := by
  intro outs
  induction outs with
  | nil =>
    intro idx acc m hdrop hnd hpn hsum hbel
    refine ⟨hnd, hpn, hsum, fun k' _ => rfl, fun l x hl hx => ⟨l, hl, hx⟩,
      fun _ => le_refl acc, ?_⟩
    intro _ _ j o2 hij hgj _
    have hlen : full.length ≤ idx := List.drop_eq_nil_iff.mp hdrop
    have hnone : full.get? j = none := by
      rw [List.get?_eq_getElem?]
      exact List.getElem?_eq_none (le_trans hlen hij)
    rw [hgj] at hnone
    exact absurd hnone (by simp)
  | cons o rest ih =>
    intro idx acc m hdrop hnd hpn hsum hbel
    have hget : full.get? idx = some o := by
      have h0 : (full.drop idx).get? 0 = some o := by rw [hdrop]; rfl
      rw [List.get?_eq_getElem?] at h0 ⊢
      rw [List.getElem?_drop] at h0
      simpa using h0
    have hdrop' : full.drop (idx + 1) = rest := by
      have h1 : List.drop 1 (List.drop idx full) = List.drop (idx + 1) full :=
        List.drop_drop 1 idx full
      rw [← h1, hdrop]
      rfl
    simp only [fsoOuts]
    by_cases hc : o.pub_key_hash = pkh ∧ acc < amount
    · rw [if_pos hc]
      have hnd2 := mapPush_keys_nodup txid (idx : Int) m hnd
      have hpn2 : ∀ p ∈ mapPush m txid (idx : Int), p.2.Nodup := by
        intro p hp
        have hpl := lookup_of_mem_nodup _ p hnd2 hp
        by_cases hpk : p.1 = txid
        · rw [hpk, lookup_mapPush_self txid (idx : Int) m] at hpl
          injection hpl with hpl2
          rw [← hpl2]
          cases hl0 : List.lookup txid m with
          | none => simp [hl0]
          | some l0 =>
            have hno : ∀ x ∈ l0, x < (idx : Int) := hbel l0 hl0
            have hninl : (idx : Int) ∉ l0 := fun hmem => absurd (hno _ hmem) (lt_irrefl _)
            have hl0nd : l0.Nodup := hpn (txid, l0) (mem_of_lookup txid l0 m hl0)
            simp [hl0, List.nodup_append, hl0nd, hninl]
        · rw [lookup_mapPush_ne txid p.1 (idx : Int) hpk m] at hpl
          exact hpn (p.1, p.2) (mem_of_lookup p.1 p.2 m hpl)
      have hget2 : full[idx]? = some o := by
        rw [← List.get?_eq_getElem?]
        exact hget
      have hpv : pairValue db txid (idx : Int) = o.value := by
        simp [pairValue, hdb, Int.toNat_natCast, hget, hget2]
      have hsum2 : selSum db (mapPush m txid (idx : Int)) = acc + o.value := by
        rw [selSum_mapPush db txid (idx : Int) m hnd, hsum, hpv]
      have hbel2 : ∀ l, List.lookup txid (mapPush m txid (idx : Int)) = some l →
          ∀ x ∈ l, x < ((idx + 1 : Nat) : Int) := by
        intro l hl x hx
        rw [lookup_mapPush_self] at hl
        injection hl with hl2
        rw [← hl2] at hx
        rcases List.mem_append.mp hx with hx1 | hx2
        · cases hl0 : List.lookup txid m with
          | none => rw [hl0] at hx1; simp at hx1
          | some l0 =>
            rw [hl0] at hx1
            have hxlt := hbel l0 hl0 x hx1
            push_cast
            push_cast at hxlt
            omega
        · simp at hx2
          subst hx2
          push_cast
          omega
      obtain ⟨O1, O2, O3, O4, O5, O6, O7⟩ :=
        ih (idx + 1) (acc + o.value) (mapPush m txid (idx : Int)) hdrop' hnd2 hpn2
          hsum2 hbel2
      refine ⟨O1, O2, O3, ?_, ?_, ?_, ?_⟩
      · intro k' hk'
        rw [O4 k' hk', lookup_mapPush_ne txid k' (idx : Int) hk' m]
      · intro l x hl hx
        refine O5 ((List.lookup txid m).getD [] ++ [(idx : Int)]) x
          (lookup_mapPush_self txid (idx : Int) m) ?_
        rw [hl]
        simp
        exact Or.inl hx
      · intro hval
        have hv0 : 0 ≤ o.value := hval o (List.mem_cons_self o rest)
        have hmono := O6 fun x hx => hval x (List.mem_cons_of_mem o hx)
        omega
      · intro hval hlt j o2 hij hgj hpkh2
        rcases Nat.eq_or_lt_of_le hij with heq | hlt2
        · subst heq
          rw [hget] at hgj
          injection hgj with ho2
          subst ho2
          refine O5 ((List.lookup txid m).getD [] ++ [(idx : Int)]) (idx : Int)
            (lookup_mapPush_self txid (idx : Int) m) ?_
          simp
        · exact O7 (fun x hx => hval x (List.mem_cons_of_mem o hx)) hlt j o2 hlt2
            hgj hpkh2
    · rw [if_neg hc]
      have hbel2 : ∀ l, List.lookup txid m = some l → ∀ x ∈ l,
          x < ((idx + 1 : Nat) : Int) := by
        intro l hl x hx
        have hxlt := hbel l hl x hx
        push_cast
        push_cast at hxlt
        omega
      obtain ⟨O1, O2, O3, O4, O5, O6, O7⟩ :=
        ih (idx + 1) acc m hdrop' hnd hpn hsum hbel2
      refine ⟨O1, O2, O3, O4, O5,
        fun hval => O6 fun x hx => hval x (List.mem_cons_of_mem o hx), ?_⟩
      · intro hval hlt j o2 hij hgj hpkh2
        rcases Nat.eq_or_lt_of_le hij with heq | hlt2
        · subst heq
          rw [hget] at hgj
          injection hgj with ho2
          subst ho2
          have hacc : ¬(acc < amount) := fun ha => hc ⟨hpkh2, ha⟩
          have hmono := O6 fun x hx => hval x (List.mem_cons_of_mem o hx)
          exact absurd hlt (by omega)
        · exact O7 (fun x hx => hval x (List.mem_cons_of_mem o hx)) hlt j o2 hlt2
            hgj hpkh2

/-- Loop invariants of the store scan of `find_spendable_outputs`, threaded
over the remaining store entries. -/
theorem fsoDb_spec (db : UtxoMap) (pkh : List Nat) (amount : Int) :
    ∀ (entries : List (String × List TXOutput)) (acc : Int)
      (m : List (String × List Int)),
      (∀ e ∈ entries, List.lookup e.1 db = some e.2) →
      (entries.map Prod.fst).Nodup →
      (∀ e ∈ entries, List.lookup e.1 m = none) →
      (m.map Prod.fst).Nodup →
      (∀ p ∈ m, p.2.Nodup) →
      selSum db m = acc →
      (((fsoDb pkh amount entries acc m).2.map Prod.fst).Nodup
      ∧ (∀ p ∈ (fsoDb pkh amount entries acc m).2, p.2.Nodup)
      ∧ selSum db (fsoDb pkh amount entries acc m).2 = (fsoDb pkh amount entries acc m).1
      ∧ (∀ k l x, List.lookup k m = some l → x ∈ l →
          ∃ l', List.lookup k (fsoDb pkh amount entries acc m).2 = some l' ∧ x ∈ l')
      ∧ ((∀ e ∈ entries, ∀ o ∈ e.2, 0 ≤ o.value) →
          acc ≤ (fsoDb pkh amount entries acc m).1)
      ∧ ((∀ e ∈ entries, ∀ o ∈ e.2, 0 ≤ o.value) →
          (fsoDb pkh amount entries acc m).1 < amount →
          ∀ e ∈ entries, ∀ (j : Nat) (o2 : TXOutput), e.2.get? j = some o2 →
            o2.pub_key_hash = pkh →
            ∃ l', List.lookup e.1 (fsoDb pkh amount entries acc m).2 = some l'
              ∧ (j : Int) ∈ l')) := by
  intro entries
  induction entries with
  | nil =>
    intro acc m _ _ _ hnd hpn hsum
    exact ⟨hnd, hpn, hsum, fun k l x hl hx => ⟨l, hl, hx⟩, fun _ => le_refl acc,
      fun _ _ e he => absurd he (List.not_mem_nil e)⟩
  | cons e0 rest ih =>
    intro acc m hdb hend hfresh hnd hpn hsum
    cases e0 with
    | mk txid outs =>
      have hdb0 : List.lookup txid db = some outs :=
        hdb (txid, outs) (List.mem_cons_self _ _)
      have hfresh0 : List.lookup txid m = none := hfresh (txid, outs) (List.mem_cons_self _ _)
      have hend2 : (txid :: rest.map Prod.fst).Nodup := hend
      have hend' := List.nodup_cons.mp hend2
      obtain ⟨O1, O2, O3, O4, O5, O6, O7⟩ :=
        fsoOuts_spec db pkh amount txid outs hdb0 outs 0 acc m rfl hnd hpn hsum
          (fun l hl => absurd (hfresh0 ▸ hl) (by simp))
      simp only [fsoDb]
      obtain ⟨D1, D2, D3, D4, D5, D6⟩ :=
        ih (fsoOuts pkh amount txid outs 0 acc m).1 (fsoOuts pkh amount txid outs 0 acc m).2
          (fun e he => hdb e (List.mem_cons_of_mem _ he))
          hend'.2
          (fun e he => by
            have hne : e.1 ≠ txid := by
              intro hq
              apply hend'.1
              rw [← hq]
              exact List.mem_map_of_mem Prod.fst he
            rw [O4 e.1 hne]
            exact hfresh e (List.mem_cons_of_mem _ he))
          O1 O2 O3
      refine ⟨D1, D2, D3, ?_, ?_, ?_⟩
      · intro k l x hl hx
        by_cases hk : k = txid
        · subst hk
          obtain ⟨l1, hl1, hx1⟩ := O5 l x hl hx
          exact D4 k l1 x hl1 hx1
        · have hl' : List.lookup k (fsoOuts pkh amount txid outs 0 acc m).2 = some l := by
            rw [O4 k hk]
            exact hl
          exact D4 k l x hl' hx
      · intro hval
        have h1 := O6 fun o ho => hval (txid, outs) (List.mem_cons_self _ _) o ho
        have h2 := D5 fun e he o ho => hval e (List.mem_cons_of_mem _ he) o ho
        omega
      · intro hval hlt e he j o2 hgj hpkh2
        rcases List.mem_cons.mp he with heq | hmem
        · subst heq
          have hmono := D5 fun e2 he2 o ho => hval e2 (List.mem_cons_of_mem _ he2) o ho
          have hlt1 : (fsoOuts pkh amount txid outs 0 acc m).1 < amount := by omega
          obtain ⟨l1, hl1, hx1⟩ := O7
            (fun o ho => hval (txid, outs) (List.mem_cons_self _ _) o ho)
            hlt1 j o2 (Nat.zero_le j) hgj hpkh2
          exact D4 txid l1 (j : Int) hl1 hx1
        · exact D6 (fun e2 he2 o ho => hval e2 (List.mem_cons_of_mem _ he2) o ho)
            hlt e hmem j o2 hgj hpkh2

/-- **C5** (confirmed).  For every utxo store with distinct transaction-id
keys, `find_spendable_outputs` returns a selection with no (txid, index)
pair repeated whose referenced output values sum to exactly the returned
accumulated total; and when the total is below the requested amount (the
function returns rather than failing), every matching output in the store
has been selected — the scan stopped only because the index was
exhausted. -/
theorem C5_find_spendable_outputs (db : UtxoMap) (pkh : List Nat) (amount : Int)
    (hkeys : (db.map Prod.fst).Nodup) :
    (((UTXOSet.find_spendable_outputs db pkh amount).2.map Prod.fst).Nodup
      ∧ ∀ p ∈ (UTXOSet.find_spendable_outputs db pkh amount).2, p.2.Nodup)
    ∧ selSum db (UTXOSet.find_spendable_outputs db pkh amount).2 =
        (UTXOSet.find_spendable_outputs db pkh amount).1
    ∧ ((∀ e ∈ db, ∀ o ∈ e.2, 0 ≤ o.value) →
        (UTXOSet.find_spendable_outputs db pkh amount).1 < amount →
        ∀ e ∈ db, ∀ (j : Nat) (o2 : TXOutput), e.2.get? j = some o2 →
          o2.pub_key_hash = pkh →
          ∃ l, List.lookup e.1 (UTXOSet.find_spendable_outputs db pkh amount).2 = some l
            ∧ (j : Int) ∈ l) := by
  obtain ⟨D1, D2, D3, _, _, D6⟩ :=
    fsoDb_spec db pkh amount db 0 []
      (fun e he => lookup_of_mem_nodup db e hkeys he)
      hkeys
      (fun e _ => rfl)
      (by simp)
      (fun p hp => absurd hp (List.not_mem_nil p))
      rfl
  exact ⟨⟨D1, D2⟩, D3, D6⟩

/-- C5 witness data: two entries, three outputs, two of them payable to
hash [7]. -/
def w5_db : UtxoMap :=
  [("a", [{ value := 3, pub_key_hash := [7] }, { value := 2, pub_key_hash := [8] }]),
   ("b", [{ value := 4, pub_key_hash := [7] }])]

/-- Witness for C5 at `w5_db`, address hash [7], requested amount 100
(insufficient funds: the scan exhausts the store at total 7 and still
reports every matching output, here (b, 0)). -/
theorem C5_witness :
    ((((UTXOSet.find_spendable_outputs w5_db [7] 100).2.map Prod.fst).Nodup
      ∧ ∀ p ∈ (UTXOSet.find_spendable_outputs w5_db [7] 100).2, p.2.Nodup)
    ∧ selSum w5_db (UTXOSet.find_spendable_outputs w5_db [7] 100).2 =
        (UTXOSet.find_spendable_outputs w5_db [7] 100).1)
    ∧ (∃ l, List.lookup "b" (UTXOSet.find_spendable_outputs w5_db [7] 100).2 = some l
        ∧ ((0 : Nat) : Int) ∈ l) :=
  ⟨⟨(C5_find_spendable_outputs w5_db [7] 100 (by decide)).1,
    (C5_find_spendable_outputs w5_db [7] 100 (by decide)).2.1⟩,
   (C5_find_spendable_outputs w5_db [7] 100 (by decide)).2.2 (by decide) (by decide)
     ("b", [{ value := 4, pub_key_hash := [7] }]) (by decide) 0
     { value := 4, pub_key_hash := [7] } (by decide) (by decide)⟩
